import Mathlib

/-!
# CompactedArray (package `array`) and `PopCnt64Before` (package `bit`)

A shallow embedding of `src/array/compact.go` and `src/bit/bit.go`.

* `uint32` / `uint64` values are natural numbers; every arithmetic operation
  of the source that can wrap is followed by an explicit `% 2 ^ 32` or
  `% 2 ^ 64`.
* A Go run-time panic (index out of range, slice bounds out of range,
  `panic("input is not a slice")`, `make` with a negative capacity) is an
  explicit outcome of the operation that raises it.
* The receiver `*CompactedArray` is mutated in place by `Init`; the model
  returns the receiver as it is left when the call returns, also when the
  call returns an error.
-/

namespace Slim

/-! ## Package `bit` -/

namespace Bit

def m1 : Nat := 0x5555555555555555
def m2 : Nat := 0x3333333333333333
def m4 : Nat := 0x0f0f0f0f0f0f0f0f
def h01 : Nat := 0x0101010101010101

/-- Subtraction of two `uint64` values, wrapping around. -/
def sub64 (a b : Nat) : Nat := (a + 2 ^ 64 - b % 2 ^ 64) % 2 ^ 64

/-- Left shift of a `uint64` by a run-time count: bits shifted past position
63 are lost, so a count of 64 or more yields 0. -/
def shl64 (a s : Nat) : Nat := (a <<< s) % 2 ^ 64

/-- `PopCnt64Before(n uint64, iBit uint32) uint32` of `bit.go`. -/
def PopCnt64Before (n iBit : Nat) : Nat :=
  let n := n &&& (sub64 (shl64 1 iBit) 1)
  let n := sub64 n ((n >>> 1) &&& m1)
  let n := ((n &&& m2) + ((n >>> 2) &&& m2)) % 2 ^ 64
  let n := ((n + (n >>> 4)) % 2 ^ 64) &&& m4
  (((n * h01) % 2 ^ 64) >>> 56) % 2 ^ 32

end Bit

/-! ## Package `array` -/

/-- Modelled from the spec: the embedded struct `prototype.CompactedArray`, whose
declaration is not among the sources. Its four fields are the ones the methods
of `compact.go` read and write: `Bitmaps []uint64` (64-bit words), `Offsets
[]uint32` (32-bit unsigned counts), `Elts []byte` (the byte buffer) and the
count `Cnt`, a `uint32` because `appendElt` assigns it to an entry of `Offsets`. -/
structure CompactedArray where
  Cnt : Nat
  Bitmaps : List Nat
  Offsets : List Nat
  Elts : List Nat
  deriving DecidableEq, Repr

/-- The zero value of the Go struct. -/
def CompactedArray.zero : CompactedArray := ⟨0, [], [], []⟩

/-- Modelled from the spec: the `Converter` interface embedded in
`CompactedArray`, whose declaration is not among the sources. Its three methods
are parameters of the model: `Marshal` encodes a value, `Unmarshal` decodes one
record from the front of a buffer and also returns the number of bytes consumed,
`GetMarshaledSize` reports the record width as a Go `int` (`Init` multiplies it
with a length, `Get` converts it with `uint32(...)`). -/
structure Converter (α : Type) where
  Marshal : α → List Nat
  Unmarshal : List Nat → Nat × α
  GetMarshaledSize : List Nat → Int

/-- The two error values declared in `compact.go`. -/
inductive InitError where
  | ErrIndexLen
  | ErrIndexNotAscending
  deriving DecidableEq, Repr

/-- The `_elts interface{}` argument of `Init`: either a slice, or a value of
any other kind. -/
inductive EltsArg (α : Type) where
  | slice (elts : List α)
  | notSlice

/-- How a call of `Init` ends: it panics, or it returns `err` (`none` is
Go's `nil`) and leaves the receiver as `sa`. -/
inductive InitOutcome where
  | panic
  | ret (err : Option InitError) (sa : CompactedArray)
  deriving DecidableEq, Repr

/-- How a call of `Get` ends: it panics, returns `nil`, or returns the value
decoded by `Unmarshal`. -/
inductive GetOutcome (α : Type) where
  | panic
  | nil
  | val (v : α)
  deriving DecidableEq, Repr

def bmWidth : Nat := 64

/-- `bmBit(idx uint32) (uint32, uint32)`. -/
def bmBit (idx : Nat) : Nat × Nat :=
  let c := idx >>> 6
  let r := idx &&& 63
  (c, r)

/-- `appendElt`; `none` is the index-out-of-range panic of `sa.Bitmaps[iBm]`
or `sa.Offsets[iBm]`. -/
def appendElt (sa : CompactedArray) (index : Nat) (elt : List Nat) : Option CompactedArray :=
  let (iBm, iBit) := bmBit index
  match sa.Bitmaps[iBm]? with
  | none => none
  | some bmWord =>
    let offsets? : Option (List Nat) :=
      if bmWord = 0 then
        (if iBm < sa.Offsets.length then some (sa.Offsets.set iBm sa.Cnt) else none)
      else some sa.Offsets
    match offsets? with
    | none => none
    | some offsets =>
      some { Cnt := (sa.Cnt + 1) % 2 ^ 32
             Bitmaps := sa.Bitmaps.set iBm (bmWord ||| Bit.shl64 1 iBit)
             Offsets := offsets
             Elts := sa.Elts ++ elt }

/-- The `for` loop of `Init`, entered with loop counter `i`, `prevIndex = prev`
and the not yet visited parts of `index` and of the element slice. -/
def initLoop {α : Type} (cv : Converter α) :
    Nat → Nat → List Nat → List α → CompactedArray → InitOutcome
  | _, _, [], _, sa => .ret none sa
  | _, _, _ :: _, [], _ => .panic
  | i, prev, x :: xs, e :: es, sa =>
    if 0 < i ∧ x ≤ prev then .ret (some .ErrIndexNotAscending) sa
    else
      match appendElt sa x (cv.Marshal e) with
      | none => .panic
      | some sa1 => initLoop cv (i + 1) x xs es sa1

/-- The `capacity` computed by `Init`, a `uint32`. -/
def initCapacity (index : List Nat) : Nat :=
  if 0 < index.length then (index.getD (index.length - 1) 0 + 1) % 2 ^ 32 else 0

/-- The `bmCnt` computed by `Init`: `(capacity + bmWidth - 1) / bmWidth` in
`uint32` arithmetic. -/
def initBmCnt (index : List Nat) : Nat :=
  (((initCapacity index + bmWidth) % 2 ^ 32 + 2 ^ 32 - 1) % 2 ^ 32) / bmWidth

/-- Multiplication of two Go `int` values, taken to be 64 bits wide: the exact
product wraps around into `[-2^63, 2^63)`. -/
def mulInt (a b : Int) : Int := (a * b + 2 ^ 63) % 2 ^ 64 - 2 ^ 63

/-- `Init(index []uint32, _elts interface{}) error`.

`make([]byte, 0, nElts*sa.GetMarshaledSize(nil))` panics when the capacity, the
wrapped `int` product, is negative; how much memory the run time can allocate
is not modelled. -/
def Init {α : Type} (cv : Converter α) (sa : CompactedArray) (index : List Nat)
    (_elts : EltsArg α) : InitOutcome :=
  match _elts with
  | .notSlice => .panic
  | .slice rElts =>
    let nElts := rElts.length
    if index.length ≠ nElts then .ret (some .ErrIndexLen) sa
    else
      let bmCnt := initBmCnt index
      if mulInt (nElts : Int) (cv.GetMarshaledSize []) < 0 then .panic
      else
        let sa0 : CompactedArray :=
          { Cnt := sa.Cnt
            Bitmaps := List.replicate bmCnt 0
            Offsets := List.replicate bmCnt 0
            Elts := [] }
        initLoop cv 0 0 index rElts sa0

/-- The byte offset `stIdx` computed by `Get`:
`uint32(sa.GetMarshaledSize(nil)) * (base + cnt1)` in `uint32` arithmetic. -/
def getStIdx {α : Type} (cv : Converter α) (base bmWord iBit : Nat) : Nat :=
  let cnt1 := Bit.PopCnt64Before bmWord iBit
  ((cv.GetMarshaledSize [] % 2 ^ 32).toNat * ((base + cnt1) % 2 ^ 32)) % 2 ^ 32

/-- `Get(idx uint32) interface{}`. -/
def Get {α : Type} (cv : Converter α) (sa : CompactedArray) (idx : Nat) : GetOutcome α :=
  let (iBm, iBit) := bmBit idx
  if iBm ≥ sa.Bitmaps.length % 2 ^ 32 then .nil
  else
    match sa.Bitmaps[iBm]? with
    | none => .panic
    | some bmWord =>
      if (bmWord >>> iBit) &&& 1 = 0 then .nil
      else
        match sa.Offsets[iBm]? with
        | none => .panic
        | some base =>
          let stIdx := getStIdx cv base bmWord iBit
          if stIdx ≤ sa.Elts.length then .val (cv.Unmarshal (sa.Elts.drop stIdx)).2
          else .panic

/-- `Has(idx uint32) bool`; `none` is the index-out-of-range panic of
`sa.Bitmaps[iBm]`. -/
def Has (sa : CompactedArray) (idx : Nat) : Option Bool :=
  let (iBm, iBit) := bmBit idx
  if iBm ≥ sa.Bitmaps.length % 2 ^ 32 then some false
  else
    match sa.Bitmaps[iBm]? with
    | none => none
    | some bmWord => some (decide ((bmWord >>> iBit) &&& 1 > 0))

/-! ## Converters used in the examples -/

/-- A converter with 4-byte big-endian records (of the value modulo `2^32`). -/
def u32Conv : Converter Nat where
  Marshal v := [v / 2 ^ 24 % 256, v / 2 ^ 16 % 256, v / 2 ^ 8 % 256, v % 256]
  Unmarshal b := (4, b.getD 0 0 * 2 ^ 24 + b.getD 1 0 * 2 ^ 16 + b.getD 2 0 * 2 ^ 8 + b.getD 3 0)
  GetMarshaledSize _ := 4

/-- A converter whose records are `2^31` bytes wide: the value in the first byte
position, then zeros. -/
def wideConv : Converter Nat where
  Marshal v := v :: List.replicate 2147483647 0
  Unmarshal b := (2147483648, b.headD 0)
  GetMarshaledSize _ := 2147483648

/-! ## Auxiliary definitions used in the proofs -/

namespace Bit

/-- Little-endian value of a list of bytes. -/
def ofBytes : List Nat → Nat
  | [] => 0
  | a :: t => a + 256 * ofBytes t

/-- The mask whose `k` bytes all equal `c`. -/
def rep (c : Nat) (k : Nat) : Nat := ofBytes (List.replicate k c)

/-- The first folding step of `PopCnt64Before` on one byte: every 2-bit field
gets the number of its set bits. -/
def f1 (a : Nat) : Nat := a - ((a >>> 1) &&& 0x55)

/-- The second folding step on one byte: every nibble gets the sum of its two
2-bit fields. -/
def f2 (a : Nat) : Nat := (a &&& 0x33) + ((a >>> 2) &&& 0x33)

/-- The third folding step on one byte: the low nibble gets the sum of the two
nibbles. -/
def f3 (a : Nat) : Nat := (a + (a >>> 4)) &&& 0x0f

/-- Both nibbles of the byte are at most 4. -/
def nibOK (b : Nat) : Prop := b % 16 ≤ 4 ∧ b / 16 ≤ 4

/-- Number of positions `j < k` at which bit `j` of `n` is 1. -/
def cntBits (n k : Nat) : Nat := ((List.range k).filter (fun j => n.testBit j)).length

/-- The eight bytes of a 64-bit word, least significant first. -/
def bytes8 (x : Nat) : List Nat :=
  [x % 256, x / 256 % 256, x / 256 ^ 2 % 256, x / 256 ^ 3 % 256, x / 256 ^ 4 % 256,
   x / 256 ^ 5 % 256, x / 256 ^ 6 % 256, x / 256 ^ 7 % 256]

end Bit

/-- Number of elements of `I` that are strictly less than `t`. -/
def countBelow (I : List Nat) (t : Nat) : Nat := (I.filter (fun y => decide (y < t))).length

/-- The receiver inside the loop of `Init`: it was allocated with `m` bitmap
words while `Cnt` was `c`, and since then the indices `P` with the elements `Q`
have been appended. -/
structure LoopInv {α : Type} (cv : Converter α) (m c : Nat) (P : List Nat) (Q : List α)
    (sa : CompactedArray) : Prop where
  lenB : sa.Bitmaps.length = m
  lenO : sa.Offsets.length = m
  bits : ∀ w word, sa.Bitmaps[w]? = some word →
    word < 2 ^ 64 ∧ ∀ b, b < 64 → (word.testBit b = true ↔ 64 * w + b ∈ P)
  offs : ∀ w word, sa.Bitmaps[w]? = some word → word ≠ 0 →
    sa.Offsets[w]? = some ((c + countBelow P (64 * w)) % 2 ^ 32)
  cnt : sa.Cnt = (c + P.length) % 2 ^ 32
  elts : sa.Elts = (Q.map cv.Marshal).flatten
  sorted : P.Pairwise (fun a b => a < b)
  inRange : ∀ y ∈ P, y / 64 < m

/-! ## `PopCnt64Before` counts the bits below `iBit` -/

namespace Bit

theorem land_lanes (a m r s : Nat) (ha : a < 256) (hm : m < 256) :
    (a + 256 * r) &&& (m + 256 * s) = (a &&& m) + 256 * (r &&& s) := by
  have e1 : a + 256 * r = 2 ^ 8 * r + a := by omega
  have e2 : m + 256 * s = 2 ^ 8 * s + m := by omega
  have hlt : a &&& m < 2 ^ 8 := Nat.and_lt_two_pow a (by simpa using hm)
  have e3 : (a &&& m) + 256 * (r &&& s) = 2 ^ 8 * (r &&& s) + (a &&& m) := by omega
  rw [e1, e2, e3]
  apply Nat.eq_of_testBit_eq
  intro j
  rw [Nat.testBit_and, Nat.testBit_mul_pow_two_add _ (by simpa using ha),
    Nat.testBit_mul_pow_two_add _ (by simpa using hm), Nat.testBit_mul_pow_two_add _ hlt]
  by_cases hj : j < 8 <;> simp [hj]

theorem shr_land_lanes (k a m r t : Nat) (hk : k ≤ 8) (ha : a < 256) (hm : m < 2 ^ (8 - k)) :
    ((a + 256 * r) >>> k) &&& (m + 256 * t) = ((a >>> k) &&& m) + 256 * ((r >>> k) &&& t) := by
  have hm8 : m < 2 ^ 8 := lt_of_lt_of_le hm (Nat.pow_le_pow_right (by norm_num) (by omega))
  have e1 : a + 256 * r = 2 ^ 8 * r + a := by omega
  have e2 : m + 256 * t = 2 ^ 8 * t + m := by omega
  have hlt : (a >>> k) &&& m < 2 ^ 8 := Nat.and_lt_two_pow _ hm8
  have e3 : ((a >>> k) &&& m) + 256 * ((r >>> k) &&& t)
      = 2 ^ 8 * ((r >>> k) &&& t) + ((a >>> k) &&& m) := by omega
  rw [e1, e2, e3]
  apply Nat.eq_of_testBit_eq
  intro j
  rw [Nat.testBit_and, Nat.testBit_shiftRight, Nat.testBit_mul_pow_two_add _ (by simpa using ha),
    Nat.testBit_mul_pow_two_add _ hm8, Nat.testBit_mul_pow_two_add _ hlt]
  by_cases hj : j < 8
  · simp only [hj, if_true, Nat.testBit_and, Nat.testBit_shiftRight]
    by_cases hkj : k + j < 8
    · simp [hkj]
    · have h1 : m.testBit j = false :=
        Nat.testBit_lt_two_pow (lt_of_lt_of_le hm (Nat.pow_le_pow_right (by norm_num) (by omega)))
      simp [h1]
  · have hkj : ¬ k + j < 8 := by omega
    simp only [hj, hkj, if_false, Nat.testBit_and, Nat.testBit_shiftRight]
    have : k + j - 8 = k + (j - 8) := by omega
    rw [this]

theorem rep_succ (c k : Nat) : rep c (k + 1) = c + 256 * rep c k := rfl

theorem ofBytes_lt (bs : List Nat) (h : ∀ b ∈ bs, b < 256) : ofBytes bs < 256 ^ bs.length := by
  induction bs with
  | nil => simp [ofBytes]
  | cons a t ih =>
    have ha := h a (by simp)
    have ht := ih (fun b hb => h b (by simp [hb]))
    simp only [ofBytes, List.length_cons, pow_succ]
    omega

theorem stage1 (bs : List Nat) (h : ∀ b ∈ bs, b < 256) :
    ofBytes bs - ((ofBytes bs >>> 1) &&& rep 0x55 bs.length) = ofBytes (bs.map f1) := by
  induction bs with
  | nil => simp [ofBytes]
  | cons a t ih =>
    have ha := h a (by simp)
    have ht := ih (fun b hb => h b (by simp [hb]))
    simp only [ofBytes, List.length_cons, rep_succ, List.map_cons]
    rw [shr_land_lanes 1 a 0x55 _ _ (by norm_num) ha (by norm_num), ← ht]
    have hp : (a >>> 1) &&& 0x55 ≤ a :=
      le_trans Nat.and_le_left (by rw [Nat.shiftRight_eq_div_pow]; exact Nat.div_le_self _ _)
    have hq : (ofBytes t >>> 1) &&& rep 0x55 t.length ≤ ofBytes t :=
      le_trans Nat.and_le_left (by rw [Nat.shiftRight_eq_div_pow]; exact Nat.div_le_self _ _)
    unfold f1
    omega

theorem stage2 (bs : List Nat) (h : ∀ b ∈ bs, b < 256) :
    (ofBytes bs &&& rep 0x33 bs.length) + ((ofBytes bs >>> 2) &&& rep 0x33 bs.length)
      = ofBytes (bs.map f2) := by
  induction bs with
  | nil => simp [ofBytes]
  | cons a t ih =>
    have ha := h a (by simp)
    have ht := ih (fun b hb => h b (by simp [hb]))
    simp only [ofBytes, List.length_cons, rep_succ, List.map_cons]
    rw [shr_land_lanes 2 a 0x33 _ _ (by norm_num) ha (by norm_num),
      land_lanes a 0x33 _ _ ha (by norm_num), ← ht]
    unfold f2
    omega

theorem stage3 (bs : List Nat) (h : ∀ b ∈ bs, nibOK b) :
    (ofBytes bs + (ofBytes bs >>> 4)) &&& rep 0x0f bs.length = ofBytes (bs.map f3) := by
  induction bs with
  | nil => simp [ofBytes]
  | cons a t ih =>
    have ha := h a (by simp)
    have ht := ih (fun b hb => h b (by simp [hb]))
    have hR : ofBytes t % 16 ≤ 4 := by
      cases t with
      | nil => simp [ofBytes]
      | cons b u =>
        have hb := (h b (by simp)).1
        simp only [ofBytes]; omega
    obtain ⟨ha1, ha2⟩ := ha
    simp only [ofBytes, List.length_cons, rep_succ, List.map_cons]
    have e : a + 256 * ofBytes t + ((a + 256 * ofBytes t) >>> 4)
        = (a + a / 16 + 16 * (ofBytes t % 16)) + 256 * (ofBytes t + (ofBytes t >>> 4)) := by
      simp only [Nat.shiftRight_eq_div_pow]; omega
    rw [e, land_lanes _ 0x0f _ _ (by omega) (by norm_num), ht]
    congr 1
    unfold f3
    have e15 : (15 : Nat) = 2 ^ 4 - 1 := by norm_num
    rw [e15, Nat.and_pow_two_sub_one_eq_mod, Nat.and_pow_two_sub_one_eq_mod,
      Nat.shiftRight_eq_div_pow]
    omega

theorem cntBits_succ (n k : Nat) :
    cntBits n (k + 1) = cntBits n k + (if n.testBit k then 1 else 0) := by
  unfold cntBits
  rw [List.range_succ, List.filter_append, List.length_append]
  by_cases h : n.testBit k <;> simp [h]

theorem cntBits_low (a r k : Nat) (ha : a < 256) (hk : k ≤ 8) :
    cntBits (a + 256 * r) k = cntBits a k := by
  induction k with
  | zero => rfl
  | succ k ih =>
    have e1 : a + 256 * r = 2 ^ 8 * r + a := by omega
    rw [cntBits_succ, cntBits_succ, ih (by omega), e1,
      Nat.testBit_mul_pow_two_add _ (by simpa using ha)]
    simp [show k < 8 by omega]

theorem cntBits_split (a r k : Nat) (ha : a < 256) :
    cntBits (a + 256 * r) (8 + k) = cntBits a 8 + cntBits r k := by
  induction k with
  | zero => simpa [cntBits] using cntBits_low a r 8 ha (le_refl _)
  | succ k ih =>
    have e1 : a + 256 * r = 2 ^ 8 * r + a := by omega
    rw [← Nat.add_assoc, cntBits_succ (a + 256 * r), cntBits_succ r, ih, e1,
      Nat.testBit_mul_pow_two_add _ (by simpa using ha)]
    simp [show ¬ (8 + k < 8) by omega, Nat.add_assoc]

theorem cntBits_mod (n k m : Nat) (h : m ≤ k) : cntBits (n % 2 ^ k) m = cntBits n m := by
  induction m with
  | zero => rfl
  | succ m ih =>
    rw [cntBits_succ, cntBits_succ, ih (by omega), Nat.testBit_mod_two_pow]
    simp [show m < k by omega]

theorem cntBits_of_lt (n k m : Nat) (hn : n < 2 ^ k) (h : k ≤ m) : cntBits n m = cntBits n k := by
  induction m with
  | zero => have : k = 0 := by omega
            subst this; rfl
  | succ m ih =>
    by_cases hk : k = m + 1
    · subst hk; rfl
    · rw [cntBits_succ, ih (by omega),
        Nat.testBit_lt_two_pow (lt_of_lt_of_le hn (Nat.pow_le_pow_right (by norm_num) (by omega)))]
      simp

set_option maxRecDepth 1000000 in
theorem byte_facts : ∀ a < 256,
    f1 a < 256 ∧ f2 (f1 a) < 256 ∧ nibOK (f2 (f1 a)) ∧ f3 (f2 (f1 a)) = cntBits a 8 := by
  unfold nibOK
  decide

theorem ofBytes_bytes8 (x : Nat) (hx : x < 2 ^ 64) : ofBytes (bytes8 x) = x := by
  simp only [bytes8, ofBytes]
  omega

theorem bytes8_lt (x : Nat) : ∀ b ∈ bytes8 x, b < 256 := by
  intro b hb
  simp only [bytes8, List.mem_cons, List.mem_singleton, List.not_mem_nil, or_false] at hb
  omega

theorem mask_eq (iBit : Nat) (h : iBit ≤ 64) : sub64 (shl64 1 iBit) 1 = 2 ^ iBit - 1 := by
  unfold sub64 shl64
  rw [Nat.shiftLeft_eq, Nat.one_mul]
  rcases Nat.lt_or_ge iBit 64 with h1 | h1
  · have hlt : 2 ^ iBit < 2 ^ 64 := Nat.pow_lt_pow_right (by norm_num) h1
    have hpos : 0 < 2 ^ iBit := Nat.pow_pos (by norm_num)
    rw [Nat.mod_eq_of_lt hlt]
    omega
  · have : iBit = 64 := by omega
    subst this
    norm_num

theorem ofBytes_nibOK_lt (bs : List Nat) (h : ∀ b ∈ bs, nibOK b) :
    3 * ofBytes bs < 256 ^ bs.length := by
  induction bs with
  | nil => simp [ofBytes]
  | cons a t ih =>
    obtain ⟨ha1, ha2⟩ := h a (by simp)
    have ht := ih (fun b hb => h b (by simp [hb]))
    simp only [ofBytes, List.length_cons, pow_succ]
    omega

/-- The value of the word after the three lane-folding steps, for a word
given by its bytes. -/
theorem swar_bytes (bs : List Nat) (h : ∀ b ∈ bs, b < 256) :
    let x := ofBytes bs
    let n1 := x - ((x >>> 1) &&& rep 0x55 bs.length)
    let n2 := (n1 &&& rep 0x33 bs.length) + ((n1 >>> 2) &&& rep 0x33 bs.length)
    (n2 + (n2 >>> 4)) &&& rep 0x0f bs.length
      = ofBytes (bs.map (fun a => cntBits a 8)) ∧
    n1 < 256 ^ bs.length ∧ n2 < 256 ^ bs.length ∧ n2 + (n2 >>> 4) < 256 ^ bs.length := by
  intro x n1 n2
  have h1 : n1 = ofBytes (bs.map f1) := stage1 bs h
  have hb1 : ∀ b ∈ bs.map f1, b < 256 := by
    intro b hb
    obtain ⟨a, ha, rfl⟩ := List.mem_map.1 hb
    exact (byte_facts a (h a ha)).1
  have h2 : n2 = ofBytes ((bs.map f1).map f2) := by
    have := stage2 (bs.map f1) hb1
    rw [List.length_map, ← h1] at this
    exact this
  have hb2 : ∀ b ∈ (bs.map f1).map f2, nibOK b := by
    intro b hb
    obtain ⟨c, hc, rfl⟩ := List.mem_map.1 hb
    obtain ⟨a, ha, rfl⟩ := List.mem_map.1 hc
    exact (byte_facts a (h a ha)).2.2.1
  have hb2' : ∀ b ∈ (bs.map f1).map f2, b < 256 := by
    intro b hb
    obtain ⟨c, hc, rfl⟩ := List.mem_map.1 hb
    obtain ⟨a, ha, rfl⟩ := List.mem_map.1 hc
    exact (byte_facts a (h a ha)).2.1
  have h3 := stage3 ((bs.map f1).map f2) hb2
  rw [List.length_map, List.length_map, ← h2] at h3
  refine ⟨?_, ?_, ?_, ?_⟩
  · rw [h3, List.map_map, List.map_map]
    congr 1
    apply List.map_congr_left
    intro a ha
    exact (byte_facts a (h a ha)).2.2.2
  · rw [h1]; simpa using ofBytes_lt _ hb1
  · rw [h2]; simpa using ofBytes_lt _ hb2'
  · have hlt := ofBytes_nibOK_lt _ hb2
    rw [List.length_map, List.length_map, ← h2] at hlt
    have : n2 >>> 4 ≤ n2 := by
      rw [Nat.shiftRight_eq_div_pow]; exact Nat.div_le_self _ _
    omega

theorem mul_h01_bytes (c0 c1 c2 c3 c4 c5 c6 c7 : Nat)
    (h0 : c0 ≤ 8) (h1 : c1 ≤ 8) (h2 : c2 ≤ 8) (h3 : c3 ≤ 8) (h4 : c4 ≤ 8) (h5 : c5 ≤ 8)
    (h6 : c6 ≤ 8) (h7 : c7 ≤ 8) :
    (((ofBytes [c0, c1, c2, c3, c4, c5, c6, c7] * h01) % 2 ^ 64) >>> 56) % 2 ^ 32
      = c0 + c1 + c2 + c3 + c4 + c5 + c6 + c7 := by
  have e : ofBytes [c0, c1, c2, c3, c4, c5, c6, c7] * h01
      = (c0 + 256 * (c0 + c1) + 256 ^ 2 * (c0 + c1 + c2) + 256 ^ 3 * (c0 + c1 + c2 + c3)
          + 256 ^ 4 * (c0 + c1 + c2 + c3 + c4) + 256 ^ 5 * (c0 + c1 + c2 + c3 + c4 + c5)
          + 256 ^ 6 * (c0 + c1 + c2 + c3 + c4 + c5 + c6)
          + 256 ^ 7 * (c0 + c1 + c2 + c3 + c4 + c5 + c6 + c7))
        + 2 ^ 64 * ((c1 + c2 + c3 + c4 + c5 + c6 + c7)
          + 256 * (c2 + c3 + c4 + c5 + c6 + c7) + 256 ^ 2 * (c3 + c4 + c5 + c6 + c7)
          + 256 ^ 3 * (c4 + c5 + c6 + c7) + 256 ^ 4 * (c5 + c6 + c7)
          + 256 ^ 5 * (c6 + c7) + 256 ^ 6 * c7) := by
    simp only [ofBytes, h01]
    ring
  rw [e, Nat.add_mul_mod_self_left, Nat.shiftRight_eq_div_pow]
  have hL : c0 + 256 * (c0 + c1) + 256 ^ 2 * (c0 + c1 + c2) + 256 ^ 3 * (c0 + c1 + c2 + c3)
      + 256 ^ 4 * (c0 + c1 + c2 + c3 + c4) + 256 ^ 5 * (c0 + c1 + c2 + c3 + c4 + c5)
      + 256 ^ 6 * (c0 + c1 + c2 + c3 + c4 + c5 + c6) < 2 ^ 56 := by omega
  have hP : c0 + c1 + c2 + c3 + c4 + c5 + c6 + c7 ≤ 64 := by omega
  generalize c0 + 256 * (c0 + c1) + 256 ^ 2 * (c0 + c1 + c2) + 256 ^ 3 * (c0 + c1 + c2 + c3)
      + 256 ^ 4 * (c0 + c1 + c2 + c3 + c4) + 256 ^ 5 * (c0 + c1 + c2 + c3 + c4 + c5)
      + 256 ^ 6 * (c0 + c1 + c2 + c3 + c4 + c5 + c6) = L at hL ⊢
  generalize c0 + c1 + c2 + c3 + c4 + c5 + c6 + c7 = P at hP ⊢
  omega

theorem cntBits_le (n k : Nat) : cntBits n k ≤ k := by
  unfold cntBits
  exact le_trans (List.length_filter_le _ _) (by simp)

theorem cntBits_bytes8 (x : Nat) (hx : x < 2 ^ 64) :
    ((bytes8 x).map (fun a => cntBits a 8)).sum = cntBits x 64 := by
  have e : x = x % 256 + 256 * (x / 256 % 256 + 256 * (x / 256 ^ 2 % 256 + 256 *
      (x / 256 ^ 3 % 256 + 256 * (x / 256 ^ 4 % 256 + 256 * (x / 256 ^ 5 % 256 + 256 *
      (x / 256 ^ 6 % 256 + 256 * (x / 256 ^ 7 % 256 + 256 * 0))))))) := by omega
  conv_rhs => rw [e]
  rw [show (64 : Nat) = 8 + (8 + (8 + (8 + (8 + (8 + (8 + (8 + 0))))))) from rfl]
  rw [cntBits_split _ _ _ (Nat.mod_lt _ (by norm_num)),
    cntBits_split _ _ _ (Nat.mod_lt _ (by norm_num)),
    cntBits_split _ _ _ (Nat.mod_lt _ (by norm_num)),
    cntBits_split _ _ _ (Nat.mod_lt _ (by norm_num)),
    cntBits_split _ _ _ (Nat.mod_lt _ (by norm_num)),
    cntBits_split _ _ _ (Nat.mod_lt _ (by norm_num)),
    cntBits_split _ _ _ (Nat.mod_lt _ (by norm_num)),
    cntBits_split _ _ _ (Nat.mod_lt _ (by norm_num))]
  simp only [bytes8, List.map_cons, List.map_nil, List.sum_cons, List.sum_nil]
  simp only [cntBits, List.range_zero, List.filter_nil, List.length_nil]

/-- `PopCnt64Before` counts the 1 bits below position `iBit`. -/
theorem PopCnt64Before_eq_cntBits (n iBit : Nat) (hn : n < 2 ^ 64) (hi : iBit ≤ 64) :
    PopCnt64Before n iBit = cntBits n iBit := by
  unfold PopCnt64Before
  simp only []
  rw [mask_eq iBit hi, Nat.and_pow_two_sub_one_eq_mod]
  have hx : n % 2 ^ iBit < 2 ^ 64 := lt_of_le_of_lt (Nat.mod_le _ _) hn
  generalize hxe : n % 2 ^ iBit = x at hx
  obtain ⟨h3, hn1, hn2, hn3⟩ := swar_bytes (bytes8 x) (bytes8_lt x)
  simp only [ofBytes_bytes8 x hx, show (bytes8 x).length = 8 from rfl,
    show rep 0x55 8 = m1 from rfl, show rep 0x33 8 = m2 from rfl,
    show rep 0x0f 8 = m4 from rfl, show (256 : Nat) ^ 8 = 2 ^ 64 by norm_num] at h3 hn1 hn2 hn3
  have hsub : sub64 x ((x >>> 1) &&& m1) = x - ((x >>> 1) &&& m1) := by
    have hq : (x >>> 1) &&& m1 ≤ x :=
      le_trans Nat.and_le_left (by rw [Nat.shiftRight_eq_div_pow]; exact Nat.div_le_self _ _)
    unfold sub64
    rw [Nat.mod_eq_of_lt (lt_of_le_of_lt hq hx)]
    omega
  rw [hsub, Nat.mod_eq_of_lt hn2, Nat.mod_eq_of_lt hn3, h3]
  have hsum := cntBits_bytes8 x hx
  have hle : ∀ a, cntBits a 8 ≤ 8 := fun a => cntBits_le a 8
  simp only [bytes8, List.map_cons, List.map_nil, List.sum_cons, List.sum_nil] at hsum ⊢
  rw [mul_h01_bytes _ _ _ _ _ _ _ _ (hle _) (hle _) (hle _) (hle _) (hle _) (hle _) (hle _) (hle _)]
  have h64 : cntBits x 64 = cntBits n iBit := by
    rw [← hxe]
    by_cases h0 : iBit = 64
    · subst h0; rw [Nat.mod_eq_of_lt hn]
    · rw [cntBits_of_lt _ iBit 64 (Nat.mod_lt _ (Nat.pow_pos (by norm_num))) hi,
        cntBits_mod _ _ _ (le_refl _)]
  omega

end Bit

/-! ## `appendElt` and the loop of `Init` -/

theorem bmBit_eq (idx : Nat) : bmBit idx = (idx / 64, idx % 64) := by
  unfold bmBit
  have e : (63 : Nat) = 2 ^ 6 - 1 := by norm_num
  simp only [Nat.shiftRight_eq_div_pow, e, Nat.and_pow_two_sub_one_eq_mod]

theorem shl64_one (b : Nat) (hb : b < 64) : Bit.shl64 1 b = 2 ^ b := by
  unfold Bit.shl64
  rw [Nat.shiftLeft_eq, Nat.one_mul]
  exact Nat.mod_eq_of_lt (Nat.pow_lt_pow_right (by norm_num) hb)

/-- What a call of `appendElt` that does not panic does to the receiver. -/
theorem appendElt_some (sa sa1 : CompactedArray) (x : Nat) (elt : List Nat)
    (h : appendElt sa x elt = some sa1) :
    ∃ word, sa.Bitmaps[x / 64]? = some word ∧
      sa1.Bitmaps = sa.Bitmaps.set (x / 64) (word ||| 2 ^ (x % 64)) ∧
      sa1.Offsets = (if word = 0 then sa.Offsets.set (x / 64) sa.Cnt else sa.Offsets) ∧
      (word = 0 → x / 64 < sa.Offsets.length) ∧
      sa1.Elts = sa.Elts ++ elt ∧ sa1.Cnt = (sa.Cnt + 1) % 2 ^ 32 := by
  unfold appendElt at h
  rw [bmBit_eq] at h
  simp only [] at h
  cases hw : sa.Bitmaps[x / 64]? with
  | none => rw [hw] at h; simp at h
  | some word =>
    rw [hw] at h
    simp only [] at h
    refine ⟨word, rfl, ?_⟩
    rw [shl64_one _ (Nat.mod_lt _ (by norm_num))] at h
    by_cases h0 : word = 0
    · by_cases hl : x / 64 < sa.Offsets.length
      · simp only [h0, hl, if_true, Option.some.injEq] at h
        subst h
        simp [h0, hl]
      · simp [h0, hl] at h
    · simp only [h0, if_false, Option.some.injEq] at h
      subst h
      simp [h0]

theorem countBelow_append_singleton (P : List Nat) (x t : Nat) :
    countBelow (P ++ [x]) t = countBelow P t + (if x < t then 1 else 0) := by
  unfold countBelow
  rw [List.filter_append, List.length_append]
  by_cases h : x < t <;> simp [h]

theorem countBelow_all (P : List Nat) (t : Nat) (h : ∀ y ∈ P, y < t) :
    countBelow P t = P.length := by
  unfold countBelow
  rw [List.filter_eq_self.2 (fun a ha => by simpa using h a ha)]

theorem word_bit_of_ne_zero (word : Nat) (hlt : word < 2 ^ 64) (h0 : word ≠ 0) :
    ∃ j, j < 64 ∧ word.testBit j = true := by
  obtain ⟨j, hj⟩ := Nat.ne_zero_implies_bit_true h0
  refine ⟨j, ?_, hj⟩
  by_contra hge
  have h1 : 2 ^ 64 ≤ 2 ^ j := Nat.pow_le_pow_right (by norm_num) (by omega)
  have h2 := Nat.testBit_implies_ge hj
  omega

/-- One iteration of the loop of `Init` keeps the invariant. -/
theorem LoopInv.step {α : Type} {cv : Converter α} {m c : Nat} {P : List Nat} {Q : List α}
    {sa sa1 : CompactedArray} (inv : LoopInv cv m c P Q sa) (x : Nat) (e : α)
    (hx : ∀ y ∈ P, y < x) (h : appendElt sa x (cv.Marshal e) = some sa1) :
    LoopInv cv m c (P ++ [x]) (Q ++ [e]) sa1 := by
  obtain ⟨word0, hw0, hB, hO, hOl, hE, hC⟩ := appendElt_some sa sa1 x _ h
  have hw0lt : x / 64 < sa.Bitmaps.length := by
    by_contra hge
    rw [List.getElem?_eq_none (by omega)] at hw0
    exact Option.noConfusion hw0
  have hb0 : x % 64 < 64 := Nat.mod_lt _ (by norm_num)
  obtain ⟨hword0lt, hword0⟩ := inv.bits _ _ hw0
  have hnew : word0 ||| 2 ^ (x % 64) ≠ 0 := by
    intro h0
    have := Nat.testBit_or word0 (2 ^ (x % 64)) (x % 64)
    rw [h0, Nat.testBit_two_pow_self] at this
    simp at this
  refine ⟨?_, ?_, ?_, ?_, ?_, ?_, ?_, ?_⟩
  · rw [hB, List.length_set]; exact inv.lenB
  · rw [hO]; split <;> simp [inv.lenO]
  · intro w word hw
    rw [hB, List.getElem?_set] at hw
    by_cases hww : x / 64 = w
    · rw [if_pos hww, if_pos hw0lt] at hw
      have hword : word = word0 ||| 2 ^ (x % 64) := (Option.some.inj hw).symm
      subst hword
      refine ⟨Nat.or_lt_two_pow hword0lt (Nat.pow_lt_pow_right (by norm_num) hb0), ?_⟩
      intro b hb
      rw [Nat.testBit_or, Nat.testBit_two_pow, Bool.or_eq_true, hword0 b hb, List.mem_append,
        List.mem_singleton, decide_eq_true_eq, hww]
      constructor
      · rintro (h1 | h1)
        · exact Or.inl h1
        · right; omega
      · rintro (h1 | h1)
        · exact Or.inl h1
        · right; omega
    · rw [if_neg hww] at hw
      obtain ⟨h1, h2⟩ := inv.bits w word hw
      refine ⟨h1, ?_⟩
      intro b hb
      rw [h2 b hb, List.mem_append, List.mem_singleton]
      constructor
      · exact Or.inl
      · rintro (h3 | h3)
        · exact h3
        · omega
  · intro w word hw hne
    rw [hB, List.getElem?_set] at hw
    rw [countBelow_append_singleton]
    by_cases hww : x / 64 = w
    · have hnlt : ¬ x < 64 * w := by omega
      rw [if_neg hnlt, Nat.add_zero]
      by_cases h0 : word0 = 0
      · rw [hO, if_pos h0, List.getElem?_set, if_pos hww, if_pos (hOl h0), inv.cnt]
        have hall : ∀ y ∈ P, y < 64 * w := by
          intro y hy
          have hyx := hx y hy
          by_contra hge
          have hyw : y / 64 = x / 64 := by omega
          have hbit := (hword0 (y % 64) (Nat.mod_lt _ (by norm_num))).2
            (by rw [← hyw]; rw [Nat.mul_comm, Nat.div_add_mod']; exact hy)
          rw [h0] at hbit
          simp at hbit
        rw [countBelow_all P _ hall]
      · rw [hO, if_neg h0]
        rw [← hww]
        exact inv.offs _ _ hw0 h0
    · rw [if_neg hww] at hw
      have hold := inv.offs w word hw hne
      obtain ⟨hwlt, hwbits⟩ := inv.bits w word hw
      obtain ⟨j, hj, hjb⟩ := word_bit_of_ne_zero word hwlt hne
      have hmem := (hwbits j hj).1 hjb
      have hlt := hx _ hmem
      have hnlt : ¬ x < 64 * w := by omega
      rw [if_neg hnlt, Nat.add_zero]
      rw [hO]
      split
      · rw [List.getElem?_set_ne hww]; exact hold
      · exact hold
  · rw [hC, inv.cnt, List.length_append, List.length_singleton]
    omega
  · rw [hE, inv.elts]; simp
  · rw [List.pairwise_append]
    refine ⟨inv.sorted, List.pairwise_singleton _ _, ?_⟩
    intro a ha b hb
    rw [List.mem_singleton] at hb
    subst hb
    exact hx a ha
  · intro y hy
    rw [List.mem_append, List.mem_singleton] at hy
    rcases hy with hy | hy
    · exact inv.inRange y hy
    · subst hy; rw [← inv.lenB]; exact hw0lt

/-- A run of the loop of `Init` that ends with `return nil` keeps the invariant
and has appended every remaining index. -/
theorem initLoop_ok {α : Type} (cv : Converter α) (m c : Nat) :
    ∀ (xs : List Nat) (es : List α) (i prev : Nat) (P : List Nat) (Q : List α)
      (sa sa1 : CompactedArray),
      LoopInv cv m c P Q sa → i = P.length → (∀ y ∈ P, y ≤ prev) → xs.length = es.length →
      initLoop cv i prev xs es sa = .ret none sa1 → LoopInv cv m c (P ++ xs) (Q ++ es) sa1 := by
  intro xs
  induction xs with
  | nil =>
    intro es i prev P Q sa sa1 inv _ _ hlen h
    have hes : es = [] := List.length_eq_zero.1 (by simpa using hlen.symm)
    subst hes
    simp only [initLoop, InitOutcome.ret.injEq, true_and] at h
    subst h
    simpa using inv
  | cons x xs ih =>
    intro es i prev P Q sa sa1 inv hi hprev hlen h
    cases es with
    | nil => simp at hlen
    | cons e es =>
      simp only [initLoop] at h
      by_cases hc : 0 < i ∧ x ≤ prev
      · rw [if_pos hc] at h
        simp at h
      · rw [if_neg hc] at h
        cases ha : appendElt sa x (cv.Marshal e) with
        | none => rw [ha] at h; simp at h
        | some sa2 =>
          rw [ha] at h
          simp only [] at h
          have hx : ∀ y ∈ P, y < x := by
            intro y hy
            have h1 := hprev y hy
            have h2 : 0 < i := by
              rw [hi]; exact List.length_pos_of_mem hy
            by_contra hge
            exact hc ⟨h2, by omega⟩
          have inv2 := inv.step x e hx ha
          have := ih es (i + 1) x (P ++ [x]) (Q ++ [e]) sa2 sa1 inv2 (by simp [hi])
            (by
              intro y hy
              rw [List.mem_append, List.mem_singleton] at hy
              rcases hy with hy | hy
              · exact le_of_lt (hx y hy)
              · exact le_of_eq hy)
            (by simpa using hlen) h
          simpa using this

/-- A run of the loop of `Init` that ends with an error: the error is
`ErrIndexNotAscending`, raised at a position `k` whose index is not above its
predecessor, after the `k` elements before it were appended. -/
theorem initLoop_err {α : Type} (cv : Converter α) :
    ∀ (xs : List Nat) (es : List α) (i prev : Nat) (sa sa1 : CompactedArray) (err : InitError),
      sa.Cnt < 2 ^ 32 → initLoop cv i prev xs es sa = .ret (some err) sa1 →
      err = .ErrIndexNotAscending ∧
      ∃ k a b, 0 < i + k ∧ xs[k]? = some a ∧ (prev :: xs)[k]? = some b ∧ a ≤ b ∧
        sa1.Bitmaps.length = sa.Bitmaps.length ∧ sa1.Offsets.length = sa.Offsets.length ∧
        sa1.Elts = sa.Elts ++ ((es.take k).map cv.Marshal).flatten ∧
        sa1.Cnt = (sa.Cnt + k) % 2 ^ 32 := by
  intro xs
  induction xs with
  | nil =>
    intro es i prev sa sa1 err _ h
    simp [initLoop] at h
  | cons x xs ih =>
    intro es i prev sa sa1 err hcnt h
    cases es with
    | nil => simp [initLoop] at h
    | cons e es =>
      simp only [initLoop] at h
      by_cases hc : 0 < i ∧ x ≤ prev
      · rw [if_pos hc] at h
        simp only [InitOutcome.ret.injEq, Option.some.injEq] at h
        obtain ⟨h1, h2⟩ := h
        subst h2
        refine ⟨h1.symm, 0, x, prev, by simpa using hc.1, by simp, by simp, hc.2, rfl, rfl,
          by simp, ?_⟩
        rw [Nat.add_zero, Nat.mod_eq_of_lt hcnt]
      · rw [if_neg hc] at h
        cases ha : appendElt sa x (cv.Marshal e) with
        | none => rw [ha] at h; simp at h
        | some sa2 =>
          rw [ha] at h
          simp only [] at h
          obtain ⟨word0, _, hB, hO, _, hE, hC⟩ := appendElt_some sa sa2 x _ ha
          have hcnt2 : sa2.Cnt < 2 ^ 32 := by
            rw [hC]; exact Nat.mod_lt _ (by norm_num)
          obtain ⟨herr, k, a, b, hk, hxa, hxb, hab, hlB, hlO, hEl, hCn⟩ :=
            ih es (i + 1) x sa2 sa1 err hcnt2 h
          refine ⟨herr, k + 1, a, b, by omega, by simpa using hxa, by simpa using hxb, hab,
            ?_, ?_, ?_, ?_⟩
          · rw [hlB, hB, List.length_set]
          · rw [hlO, hO]; split <;> simp
          · rw [hEl, hE]; simp
          · rw [hCn, hC]; omega

theorem LoopInv.init {α : Type} (cv : Converter α) (m c : Nat) (hc : c < 2 ^ 32) :
    LoopInv cv m c [] [] ⟨c, List.replicate m 0, List.replicate m 0, []⟩ := by
  refine ⟨by simp, by simp, ?_, ?_, by simpa using (Nat.mod_eq_of_lt hc).symm, by simp,
    List.Pairwise.nil, by simp⟩
  · intro w word hw
    rw [List.getElem?_replicate] at hw
    split at hw
    · have : word = 0 := (Option.some.inj hw).symm
      subst this
      simp
    · simp at hw
  · intro w word hw hne
    rw [List.getElem?_replicate] at hw
    split at hw
    · exact absurd (Option.some.inj hw).symm hne
    · simp at hw

/-! ## Counting the indices below a bound -/

theorem countBelow_cons (a : Nat) (l : List Nat) (t : Nat) :
    countBelow (a :: l) t = (if a < t then 1 else 0) + countBelow l t := by
  unfold countBelow
  by_cases h : a < t <;> simp [h, List.filter_cons, Nat.add_comm]

theorem countBelow_succ (I : List Nat) (hnd : I.Nodup) (t : Nat) :
    countBelow I (t + 1) = countBelow I t + (if t ∈ I then 1 else 0) := by
  induction I with
  | nil => simp [countBelow]
  | cons a l ih =>
    obtain ⟨hal, hl⟩ := List.nodup_cons.1 hnd
    rw [countBelow_cons, countBelow_cons, ih hl]
    by_cases hat : a = t
    · subst hat
      simp [hal]
      omega
    · have hne : ¬ t = a := fun h => hat h.symm
      simp only [List.mem_cons, hne, false_or]
      by_cases h1 : a < t
      · have h2 : a < t + 1 := by omega
        simp only [h1, h2, if_true]; omega
      · have h2 : ¬ a < t + 1 := by omega
        simp only [h1, h2, if_false]; omega

theorem countBelow_le (I : List Nat) (hnd : I.Nodup) (t : Nat) : countBelow I t ≤ t := by
  induction t with
  | zero => simp [countBelow]
  | succ t ih =>
    rw [countBelow_succ I hnd]
    split <;> omega

theorem countBelow_getElem (I : List Nat) (hs : I.Pairwise (fun a b => a < b)) :
    ∀ (k : Nat) (x : Nat), I[k]? = some x → countBelow I x = k := by
  induction I with
  | nil => intro k x h; simp at h
  | cons a l ih =>
    intro k x h
    obtain ⟨hal, hl⟩ := List.pairwise_cons.1 hs
    rw [countBelow_cons]
    cases k with
    | zero =>
      simp only [List.getElem?_cons_zero, Option.some.injEq] at h
      subst h
      have : countBelow l a = 0 := by
        unfold countBelow
        rw [List.length_eq_zero, List.filter_eq_nil_iff]
        intro y hy
        have := hal y hy
        simp only [decide_eq_true_eq]; omega
      simp [this]
    | succ k =>
      simp only [List.getElem?_cons_succ] at h
      have hx : x ∈ l := List.getElem?_mem h
      have := hal x hx
      rw [ih hl k x h, if_pos this]
      omega

theorem nodup_of_ascending (I : List Nat) (hs : I.Pairwise (fun a b => a < b)) : I.Nodup :=
  List.Pairwise.imp (fun h => Nat.ne_of_lt h) hs

theorem length_le_of_ascending (I : List Nat) (hs : I.Pairwise (fun a b => a < b)) (B : Nat)
    (hB : ∀ y ∈ I, y < B) : I.length ≤ B := by
  rw [← countBelow_all I B hB]
  exact countBelow_le I (nodup_of_ascending I hs) B

/-- The rank of bit `b` inside a word whose bits mark the members of `I` in
block `w` is the number of members of `I` in `[64 * w, 64 * w + b)`. -/
theorem countBelow_block (I : List Nat) (hnd : I.Nodup) (w word : Nat)
    (hbits : ∀ b, b < 64 → (word.testBit b = true ↔ 64 * w + b ∈ I)) :
    ∀ b, b ≤ 64 → countBelow I (64 * w + b) = countBelow I (64 * w) + Bit.cntBits word b := by
  intro b
  induction b with
  | zero => intro _; simp [Bit.cntBits]
  | succ b ih =>
    intro hb
    rw [← Nat.add_assoc, countBelow_succ I hnd, ih (by omega), Bit.cntBits_succ]
    by_cases hm : 64 * w + b ∈ I
    · have := (hbits b (by omega)).2 hm
      simp [hm, this, Nat.add_assoc]
    · have : ¬ word.testBit b = true := fun h => hm ((hbits b (by omega)).1 h)
      simp [hm, this]

/-! ## Lookup on a receiver that satisfies the loop invariant -/

theorem shift_and_one_eq_zero (word b : Nat) :
    ((word >>> b) &&& 1 = 0) ↔ word.testBit b = false := by
  rw [Nat.and_one_is_mod, Nat.testBit_to_div_mod, Nat.shiftRight_eq_div_pow]
  simp only [decide_eq_false_iff_not]
  omega

theorem LoopInv.word_of_mem {α : Type} {cv : Converter α} {m c : Nat} {P : List Nat}
    {Q : List α} {sa : CompactedArray} (inv : LoopInv cv m c P Q sa) (x : Nat) (hx : x ∈ P) :
    ∃ word, sa.Bitmaps[x / 64]? = some word ∧ word < 2 ^ 64 ∧ word.testBit (x % 64) = true ∧
      word ≠ 0 := by
  have hlt : x / 64 < sa.Bitmaps.length := by rw [inv.lenB]; exact inv.inRange x hx
  have hw : sa.Bitmaps[x / 64]? = some sa.Bitmaps[x / 64] := List.getElem?_eq_getElem hlt
  obtain ⟨h1, h2⟩ := inv.bits _ _ hw
  have h3 : sa.Bitmaps[x / 64].testBit (x % 64) = true :=
    (h2 (x % 64) (Nat.mod_lt _ (by norm_num))).2 (by rw [Nat.div_add_mod]; exact hx)
  refine ⟨_, hw, h1, h3, ?_⟩
  intro h0
  rw [h0] at h3
  simp at h3

/-- `Has` never panics, and answers whether the index was inserted. -/
theorem LoopInv.Has_eq {α : Type} {cv : Converter α} {m c : Nat} {P : List Nat}
    {Q : List α} {sa : CompactedArray} (inv : LoopInv cv m c P Q sa) (hm : m < 2 ^ 32)
    (idx : Nat) : Has sa idx = some (decide (idx ∈ P)) := by
  unfold Has
  rw [bmBit_eq]
  simp only []
  rw [inv.lenB, Nat.mod_eq_of_lt hm]
  by_cases hge : idx / 64 ≥ m
  · rw [if_pos hge]
    have : idx ∉ P := fun h => absurd (inv.inRange idx h) (by omega)
    simp [this]
  · rw [if_neg hge]
    have hlt : idx / 64 < sa.Bitmaps.length := by rw [inv.lenB]; omega
    have hw : sa.Bitmaps[idx / 64]? = some sa.Bitmaps[idx / 64] := List.getElem?_eq_getElem hlt
    obtain ⟨_, h2⟩ := inv.bits _ _ hw
    have h3 := h2 (idx % 64) (Nat.mod_lt _ (by norm_num))
    rw [Nat.div_add_mod] at h3
    rw [hw]
    simp only [Option.some.injEq, gt_iff_lt, Nat.pos_iff_ne_zero, ne_eq,
      shift_and_one_eq_zero, Bool.not_eq_false, h3]

/-- `Get` of an index that was not inserted returns `nil`. -/
theorem LoopInv.Get_not_mem {α : Type} {cv : Converter α} {m c : Nat} {P : List Nat}
    {Q : List α} {sa : CompactedArray} (inv : LoopInv cv m c P Q sa)
    (idx : Nat) (h : idx ∉ P) : Get cv sa idx = .nil := by
  unfold Get
  rw [bmBit_eq]
  simp only []
  split
  · rfl
  · cases hw : sa.Bitmaps[idx / 64]? with
    | none =>
      rename_i hlt
      have h1 : idx / 64 < sa.Bitmaps.length :=
        lt_of_lt_of_le (not_le.1 hlt) (Nat.mod_le _ _)
      rw [List.getElem?_eq_getElem h1] at hw
      exact Option.noConfusion hw
    | some word =>
      obtain ⟨_, h2⟩ := inv.bits _ _ hw
      have h3 := h2 (idx % 64) (Nat.mod_lt _ (by norm_num))
      rw [Nat.div_add_mod] at h3
      have h4 : word.testBit (idx % 64) = false := by
        cases hb : word.testBit (idx % 64) with
        | false => rfl
        | true => exact absurd (h3.1 hb) h
      simp only []
      rw [if_pos ((shift_and_one_eq_zero _ _).2 h4)]

/-- `Get` of the `k`-th inserted index computes the slot `(c + k) mod 2^32`,
where `c` is the value `Cnt` had when `Init` was called. -/
theorem LoopInv.Get_mem {α : Type} {cv : Converter α} {m c : Nat} {P : List Nat}
    {Q : List α} {sa : CompactedArray} (inv : LoopInv cv m c P Q sa) (hm : m < 2 ^ 32)
    (k x : Nat) (hk : P[k]? = some x) :
    ∃ word base, sa.Bitmaps[x / 64]? = some word ∧ sa.Offsets[x / 64]? = some base ∧
      (base + Bit.PopCnt64Before word (x % 64)) % 2 ^ 32 = (c + k) % 2 ^ 32 ∧
      Get cv sa x =
        (if getStIdx cv base word (x % 64) ≤ sa.Elts.length then
          .val (cv.Unmarshal (sa.Elts.drop (getStIdx cv base word (x % 64)))).2
        else .panic) := by
  have hx : x ∈ P := List.getElem?_mem hk
  obtain ⟨word, hw, hwlt, hbit, hne⟩ := inv.word_of_mem x hx
  have hoff := inv.offs _ _ hw hne
  have hb : x % 64 < 64 := Nat.mod_lt _ (by norm_num)
  refine ⟨word, _, hw, hoff, ?_, ?_⟩
  · rw [Bit.PopCnt64Before_eq_cntBits word _ hwlt (le_of_lt hb)]
    have h1 := countBelow_block P (nodup_of_ascending P inv.sorted) (x / 64) word
      (inv.bits _ _ hw).2 (x % 64) (le_of_lt hb)
    rw [Nat.div_add_mod, countBelow_getElem P inv.sorted k x hk] at h1
    omega
  · unfold Get
    rw [bmBit_eq]
    simp only []
    have hlt : ¬ x / 64 ≥ sa.Bitmaps.length % 2 ^ 32 := by
      rw [inv.lenB, Nat.mod_eq_of_lt hm]
      have := inv.inRange x hx
      omega
    rw [if_neg hlt, hw]
    simp only []
    have hnz : ¬ ((word >>> (x % 64)) &&& 1 = 0) := by
      rw [shift_and_one_eq_zero, hbit]; simp
    rw [if_neg hnz, hoff]

/-! ## `Init` -/

theorem initBmCnt_le (I : List Nat) : initBmCnt I ≤ 2 ^ 26 - 1 := by
  unfold initBmCnt bmWidth
  omega

/-- A call of `Init` that returns `nil` leaves the receiver in a state that
satisfies the loop invariant for the whole input. -/
theorem Init_ok {α : Type} (cv : Converter α) (sa sa1 : CompactedArray) (I : List Nat)
    (V : List α) (hc : sa.Cnt < 2 ^ 32) (h : Init cv sa I (.slice V) = .ret none sa1) :
    I.length = V.length ∧ LoopInv cv (initBmCnt I) sa.Cnt I V sa1 := by
  unfold Init at h
  simp only [] at h
  by_cases hlen : I.length = V.length
  · rw [if_neg (not_not.2 hlen)] at h
    split at h
    · simp at h
    · refine ⟨hlen, ?_⟩
      have := initLoop_ok cv (initBmCnt I) sa.Cnt I V 0 0 [] [] _ sa1
        (LoopInv.init cv _ _ hc) rfl (by simp) hlen h
      simpa using this
  · rw [if_pos hlen] at h
    simp at h

theorem LoopInv.lt_limit {α : Type} {cv : Converter α} {c : Nat} {I P : List Nat}
    {Q : List α} {sa : CompactedArray} (inv : LoopInv cv (initBmCnt I) c P Q sa) :
    ∀ y ∈ P, y < 2 ^ 32 - 64 := by
  intro y hy
  have h1 := inv.inRange y hy
  have h2 := initBmCnt_le I
  omega

theorem LoopInv.length_lt {α : Type} {cv : Converter α} {c : Nat} {I P : List Nat}
    {Q : List α} {sa : CompactedArray} (inv : LoopInv cv (initBmCnt I) c P Q sa) :
    P.length ≤ 2 ^ 32 - 64 :=
  length_le_of_ascending P inv.sorted _ inv.lt_limit

theorem length_flatten_marshal {α : Type} (f : α → List Nat) (s : Nat)
    (hs : ∀ v, (f v).length = s) (V : List α) : ((V.map f).flatten).length = V.length * s := by
  induction V with
  | nil => simp
  | cons v t ih =>
    simp only [List.map_cons, List.flatten_cons, List.length_append, List.length_cons, ih, hs]
    rw [Nat.succ_mul, Nat.add_comm]

/-- The `k`-th record of the element store starts at byte `k * s`. -/
theorem drop_flatten_marshal {α : Type} (f : α → List Nat) (s : Nat)
    (hs : ∀ v, (f v).length = s) :
    ∀ (V : List α) (k : Nat) (v : α), V[k]? = some v →
      ((V.map f).flatten).drop (k * s) = f v ++ (((V.drop (k + 1)).map f).flatten) := by
  intro V
  induction V with
  | nil => intro k v h; simp at h
  | cons a t ih =>
    intro k v h
    cases k with
    | zero =>
      simp only [List.getElem?_cons_zero, Option.some.injEq] at h
      subst h
      simp
    | succ k =>
      simp only [List.getElem?_cons_succ] at h
      simp only [List.map_cons, List.flatten_cons, List.drop_succ_cons]
      rw [Nat.succ_mul, Nat.add_comm, ← hs a, List.drop_append, hs a]
      exact ih k v h

/-! ## `Init` returns `nil` on every ascending input below `2^32 - 64` -/

theorem appendElt_succeeds (sa : CompactedArray) (x : Nat) (elt : List Nat)
    (h1 : x / 64 < sa.Bitmaps.length) (h2 : sa.Offsets.length = sa.Bitmaps.length) :
    ∃ sa1, appendElt sa x elt = some sa1 ∧ sa1.Bitmaps.length = sa.Bitmaps.length ∧
      sa1.Offsets.length = sa.Offsets.length := by
  unfold appendElt
  rw [bmBit_eq]
  simp only []
  rw [List.getElem?_eq_getElem h1]
  simp only []
  by_cases h0 : sa.Bitmaps[x / 64] = 0
  · simp [h0, h2, h1]
  · simp [h0]

theorem initLoop_succeeds {α : Type} (cv : Converter α) :
    ∀ (xs : List Nat) (es : List α) (i prev : Nat) (sa : CompactedArray),
      xs.length = es.length → xs.Pairwise (fun a b => a < b) → (i = 0 ∨ ∀ x ∈ xs, prev < x) →
      (∀ x ∈ xs, x / 64 < sa.Bitmaps.length) → sa.Offsets.length = sa.Bitmaps.length →
      ∃ sa1, initLoop cv i prev xs es sa = .ret none sa1 := by
  intro xs
  induction xs with
  | nil => intro es i prev sa _ _ _ _ _; exact ⟨sa, by simp [initLoop]⟩
  | cons x xs ih =>
    intro es i prev sa hlen hasc hprev hrange hO
    cases es with
    | nil => simp at hlen
    | cons e es =>
      obtain ⟨hx, hxs⟩ := List.pairwise_cons.1 hasc
      have hc : ¬ (0 < i ∧ x ≤ prev) := by
        rintro ⟨h1, h2⟩
        rcases hprev with h | h
        · omega
        · have := h x (by simp); omega
      obtain ⟨sa2, ha, hB2, hO2⟩ := appendElt_succeeds sa x (cv.Marshal e)
        (hrange x (by simp)) hO
      simp only [initLoop, if_neg hc, ha]
      exact ih es (i + 1) x sa2 (by simpa using hlen) hxs (Or.inr hx)
        (fun y hy => by rw [hB2]; exact hrange y (by simp [hy])) (by rw [hO2, hB2, hO])

theorem le_last_of_ascending (I : List Nat) (hasc : I.Pairwise (fun a b => a < b)) :
    ∀ x ∈ I, x ≤ I.getD (I.length - 1) 0 := by
  intro x hx
  obtain ⟨k, hk, rfl⟩ := List.mem_iff_getElem.1 hx
  have hl : I.length - 1 < I.length := by omega
  have e : I.getD (I.length - 1) 0 = I[I.length - 1] := by
    simp [List.getD, List.getElem?_eq_getElem hl]
  rw [e]
  by_cases hkl : k = I.length - 1
  · subst hkl; exact le_refl _
  · exact le_of_lt (List.pairwise_iff_getElem.1 hasc k (I.length - 1) hk hl (by omega))

theorem last_mem (I : List Nat) (h : 0 < I.length) : I.getD (I.length - 1) 0 ∈ I := by
  have hl : I.length - 1 < I.length := by omega
  have e : I.getD (I.length - 1) 0 = I[I.length - 1] := by
    simp [List.getD, List.getElem?_eq_getElem hl]
  rw [e]
  exact List.getElem_mem _

/-- Below the wrap-around limit `bmCnt` is the number of 64-bit blocks needed
for `capacity = last + 1` positions. -/
theorem initBmCnt_of_lt (I : List Nat) (h : 0 < I.length)
    (hlast : I.getD (I.length - 1) 0 < 2 ^ 32 - 64) :
    initBmCnt I = (I.getD (I.length - 1) 0 + 1 + 63) / 64 := by
  unfold initBmCnt initCapacity bmWidth
  rw [if_pos h]
  omega

/-- A product in `[0, 2^63)` is not changed by the wrap-around of `int`. -/
theorem mulInt_of_fits (a b : Int) (h0 : 0 ≤ a * b) (h1 : a * b < 2 ^ 63) :
    mulInt a b = a * b := by
  unfold mulInt
  generalize a * b = p at h0 h1
  omega

theorem mulInt_zero_left (b : Int) : mulInt 0 b = 0 := by
  unfold mulInt
  rw [Int.zero_mul, Int.zero_add]
  norm_num

/-- Two elements of `2^62` bytes give the capacity `-2^63`, on which `make` panics; two
elements of a reported size `-2^63` give the capacity 0. -/
theorem mulInt_wraps : mulInt 2 (2 ^ 62) = -2 ^ 63 ∧ mulInt 2 (-2 ^ 63) = 0 := by
  decide

/-- The capacity test of `Init` passes when the record size is not negative and the
exact product fits into an `int`. -/
theorem mulInt_nonneg_of_fits (n : Nat) (size : Int) (h0 : 0 ≤ size)
    (h1 : (n : Int) * size < 2 ^ 63) : 0 ≤ mulInt (n : Int) size := by
  have hp : 0 ≤ (n : Int) * size := Int.mul_nonneg (Int.ofNat_nonneg _) h0
  rw [mulInt_of_fits _ _ hp h1]
  exact hp

theorem Init_succeeds {α : Type} (cv : Converter α) (sa : CompactedArray) (I : List Nat)
    (V : List α) (hasc : I.Pairwise (fun a b => a < b)) (hI : ∀ x ∈ I, x < 2 ^ 32 - 64)
    (hlen : I.length = V.length) (hsz : 0 ≤ mulInt (V.length : Int) (cv.GetMarshaledSize [])) :
    ∃ sa1, Init cv sa I (.slice V) = .ret none sa1 := by
  unfold Init
  simp only []
  rw [if_neg (not_not.2 hlen), if_neg (not_lt.2 hsz)]
  apply initLoop_succeeds cv I V 0 0 _ hlen hasc (Or.inl rfl)
  · intro x hx
    have hpos : 0 < I.length := List.length_pos_of_mem hx
    have h1 := le_last_of_ascending I hasc x hx
    have h2 := hI _ (last_mem I hpos)
    simp only [List.length_replicate]
    rw [initBmCnt_of_lt I hpos h2]
    omega
  · simp

/-! ## The byte offset computed by `Get` -/

theorem toNat_size_mod (s : Nat) : ((s : Int) % 2 ^ 32).toNat = s % 2 ^ 32 := by
  have : ((s : Int) % 2 ^ 32) = ((s % 2 ^ 32 : Nat) : Int) := by push_cast; rfl
  rw [this, Int.toNat_ofNat]

/-- The wrapped `uint32` product computed by `Get` never exceeds the exact byte offset
of slot `k`. -/
theorem getStIdx_le {α : Type} (cv : Converter α) (s base word b k : Nat)
    (hs : cv.GetMarshaledSize [] = (s : Int))
    (hslot : (base + Bit.PopCnt64Before word b) % 2 ^ 32 = k) :
    getStIdx cv base word b ≤ s * k := by
  unfold getStIdx
  simp only []
  rw [hs, toNat_size_mod, hslot]
  exact le_trans (Nat.mod_le _ _) (Nat.mul_le_mul_right _ (Nat.mod_le _ _))

/-! ## Round trip below the arithmetic limits -/

/-- When the whole element store is addressable with 32 bits, the `uint32` product
computed by `Get` for slot `k` is the exact byte offset `k * s`. -/
theorem getStIdx_eq {α : Type} (cv : Converter α) (s base word b k n : Nat)
    (hs : cv.GetMarshaledSize [] = (s : Int))
    (hslot : (base + Bit.PopCnt64Before word b) % 2 ^ 32 = k)
    (hk : k < n) (hfit : n * s ≤ 2 ^ 32) :
    getStIdx cv base word b = k * s := by
  unfold getStIdx
  simp only []
  rw [hs, toNat_size_mod, hslot]
  rcases Nat.eq_zero_or_pos k with h0 | hpos
  · subst h0; simp
  · have h1 : (k + 1) * s ≤ n * s := Nat.mul_le_mul_right _ hk
    have h2 : 2 * s ≤ (k + 1) * s := Nat.mul_le_mul_right _ (by omega)
    have h3 : (k + 1) * s = k * s + s := by ring
    rcases Nat.eq_zero_or_pos s with hs0 | hspos
    · subst hs0; simp
    · rw [Nat.mod_eq_of_lt (a := s) (by omega), Nat.mul_comm, Nat.mod_eq_of_lt (by omega)]

/-- For a strictly ascending index sequence below `2^32 - 64` and an element store of at
most `2^32` bytes, `Init` on a zero-valued receiver returns `nil`, and afterwards `Has`
finds every inserted index and `Get` decodes the value inserted with it. -/
theorem Init_Get_roundtrip {α : Type} (cv : Converter α) (I : List Nat) (V : List α)
    (s : Nat) (hasc : I.Pairwise (fun a b => a < b)) (hI : ∀ x ∈ I, x < 2 ^ 32 - 64)
    (hlen : I.length = V.length) (hs : cv.GetMarshaledSize [] = (s : Int))
    (hmar : ∀ v, (cv.Marshal v).length = s)
    (hrt : ∀ v rest, (cv.Unmarshal (cv.Marshal v ++ rest)).2 = v)
    (hfit : V.length * s ≤ 2 ^ 32) :
    ∃ sa, Init cv CompactedArray.zero I (.slice V) = .ret none sa ∧
      ∀ (k x : Nat) (v : α), I[k]? = some x → V[k]? = some v →
        Has sa x = some true ∧ Get cv sa x = .val v := by
  have hcap : (V.length : Int) * cv.GetMarshaledSize [] < 2 ^ 63 := by
    rw [hs]
    have : ((V.length : Int) * (s : Int)) = ((V.length * s : Nat) : Int) := by push_cast; rfl
    rw [this]
    omega
  obtain ⟨sa, h⟩ := Init_succeeds cv CompactedArray.zero I V hasc hI hlen
    (mulInt_nonneg_of_fits _ _ (by rw [hs]; exact Int.ofNat_nonneg _) hcap)
  refine ⟨sa, h, ?_⟩
  obtain ⟨_, inv⟩ := Init_ok cv _ sa I V (by simp [CompactedArray.zero]) h
  have hm : initBmCnt I < 2 ^ 32 := lt_of_le_of_lt (initBmCnt_le I) (by norm_num)
  intro k x v hkx hkv
  have hkn : k < V.length := by
    by_contra hge
    rw [List.getElem?_eq_none (by omega)] at hkv
    exact Option.noConfusion hkv
  refine ⟨by rw [inv.Has_eq hm x]; simp [List.getElem?_mem hkx], ?_⟩
  obtain ⟨word, base, _, _, hslot, hget⟩ := inv.Get_mem hm k x hkx
  simp only [CompactedArray.zero, Nat.zero_add] at hslot
  rw [Nat.mod_eq_of_lt (a := k) (by have := inv.length_lt; omega)] at hslot
  have hst := getStIdx_eq cv s base word (x % 64) k V.length hs hslot hkn hfit
  have hEl : sa.Elts.length = V.length * s := by
    rw [inv.elts, length_flatten_marshal _ _ hmar]
  have hle : k * s ≤ V.length * s := Nat.mul_le_mul_right _ (le_of_lt hkn)
  rw [hget, hst, if_pos (by omega), inv.elts, drop_flatten_marshal _ _ hmar V k v hkv, hrt]

/-- Once the element store needs `2^32` bytes or more the byte offset of `Get` wraps:
with three records of `2^31` bytes, `Get(2)` computes `stIdx = 2^31 * 2 mod 2^32 = 0` and
decodes the record of index 0. -/
theorem Get_offset_wraps :
    ∃ sa, Init wideConv CompactedArray.zero [0, 1, 2] (.slice [7, 8, 9]) = .ret none sa ∧
      Get wideConv sa 2 = .val 7 := by
  obtain ⟨sa, h⟩ := Init_succeeds wideConv CompactedArray.zero [0, 1, 2] [7, 8, 9]
    (by decide) (by decide) rfl (by decide)
  refine ⟨sa, h, ?_⟩
  obtain ⟨_, inv⟩ := Init_ok wideConv _ sa [0, 1, 2] [7, 8, 9] (by simp [CompactedArray.zero]) h
  have hm : initBmCnt [0, 1, 2] < 2 ^ 32 := lt_of_le_of_lt (initBmCnt_le _) (by norm_num)
  obtain ⟨word, base, _, _, hslot, hget⟩ := inv.Get_mem hm 2 2 rfl
  have hst : getStIdx wideConv base word (2 % 64) = 0 := by
    unfold getStIdx
    simp only []
    rw [hslot]
    rfl
  rw [hget, hst, if_pos (Nat.zero_le _), List.drop_zero, inv.elts]
  rfl

/-! ## The block count of a successful `Init` -/

/-- Below the wrap-around limit the block count is as the data model states: after
`Init` returned `nil` on a non-empty input, `Bitmaps` and `Offsets` both have
`ceil((last + 1) / 64)` entries. -/
theorem Init_block_count {α : Type} (cv : Converter α) (sa sa1 : CompactedArray)
    (I : List Nat) (V : List α) (hc : sa.Cnt < 2 ^ 32) (hpos : 0 < I.length)
    (h : Init cv sa I (.slice V) = .ret none sa1) :
    sa1.Bitmaps.length = (I.getD (I.length - 1) 0 + 1 + 63) / 64 ∧
    sa1.Offsets.length = (I.getD (I.length - 1) 0 + 1 + 63) / 64 := by
  obtain ⟨_, inv⟩ := Init_ok cv sa sa1 I V hc h
  have := initBmCnt_of_lt I hpos (inv.lt_limit _ (last_mem I hpos))
  exact ⟨by rw [inv.lenB, this], by rw [inv.lenO, this]⟩

/-! ## Slots, bit counts and the dependence on the old `Cnt` -/

theorem shift_and_one_eq_one (word b : Nat) :
    ((word >>> b) &&& 1 = 1) ↔ word.testBit b = true := by
  rw [Nat.and_one_is_mod, Nat.testBit_to_div_mod, Nat.shiftRight_eq_div_pow]
  simp only [decide_eq_true_eq]

/-- The slot of the `k`-th inserted index before the reduction modulo `2^32`: the offset
of its block is `(c + number of indices below the block) mod 2^32` and its rank in the
block is the number of indices of the block below it. -/
theorem LoopInv.slot {α : Type} {cv : Converter α} {m c : Nat} {P : List Nat}
    {Q : List α} {sa : CompactedArray} (inv : LoopInv cv m c P Q sa)
    (k x : Nat) (hk : P[k]? = some x) :
    ∃ word, sa.Bitmaps[x / 64]? = some word ∧
      sa.Offsets[x / 64]? = some ((c + countBelow P (64 * (x / 64))) % 2 ^ 32) ∧
      countBelow P (64 * (x / 64)) + Bit.PopCnt64Before word (x % 64) = k := by
  have hx : x ∈ P := List.getElem?_mem hk
  obtain ⟨word, hw, hwlt, _, hne⟩ := inv.word_of_mem x hx
  have hb : x % 64 < 64 := Nat.mod_lt _ (by norm_num)
  refine ⟨word, hw, inv.offs _ _ hw hne, ?_⟩
  rw [Bit.PopCnt64Before_eq_cntBits word _ hwlt (le_of_lt hb)]
  have h1 := countBelow_block P (nodup_of_ascending P inv.sorted) (x / 64) word
    (inv.bits _ _ hw).2 (x % 64) (le_of_lt hb)
  rw [Nat.div_add_mod, countBelow_getElem P inv.sorted k x hk] at h1
  exact h1.symm

/-- The population counts of the first `j` bitmap words add up to the number of inserted
indices below `64 * j`. -/
theorem LoopInv.popcount_sum {α : Type} {cv : Converter α} {m c : Nat} {P : List Nat}
    {Q : List α} {sa : CompactedArray} (inv : LoopInv cv m c P Q sa) :
    ∀ j, j ≤ m →
      ((sa.Bitmaps.take j).map (fun word => Bit.PopCnt64Before word 64)).sum
        = countBelow P (64 * j) := by
  intro j
  induction j with
  | zero => intro _; simp [countBelow]
  | succ j ih =>
    intro hj
    have hlt : j < sa.Bitmaps.length := by rw [inv.lenB]; omega
    have hw : sa.Bitmaps[j]? = some sa.Bitmaps[j] := List.getElem?_eq_getElem hlt
    obtain ⟨hwlt, hbits⟩ := inv.bits _ _ hw
    rw [List.take_succ, hw, List.map_append, List.sum_append, ih (by omega)]
    simp only [Option.toList_some, List.map_cons, List.map_nil, List.sum_cons, List.sum_nil,
      Nat.add_zero]
    rw [Bit.PopCnt64Before_eq_cntBits _ 64 hwlt (le_refl _), Nat.mul_succ]
    exact (countBelow_block P (nodup_of_ascending P inv.sorted) j _ hbits 64 (le_refl _)).symm

/-- Two receivers that satisfy the invariant for the same indices have the same bitmap
words, whatever `Cnt` was when they were allocated. -/
theorem LoopInv.bitmaps_unique {α : Type} {cv : Converter α} {m c1 c2 : Nat} {P : List Nat}
    {Q : List α} {sa1 sa2 : CompactedArray} (inv1 : LoopInv cv m c1 P Q sa1)
    (inv2 : LoopInv cv m c2 P Q sa2) : sa1.Bitmaps = sa2.Bitmaps := by
  apply List.ext_getElem?
  intro n
  by_cases hn : n < m
  · have h1 : n < sa1.Bitmaps.length := by rw [inv1.lenB]; exact hn
    have h2 : n < sa2.Bitmaps.length := by rw [inv2.lenB]; exact hn
    have hw1 : sa1.Bitmaps[n]? = some sa1.Bitmaps[n] := List.getElem?_eq_getElem h1
    have hw2 : sa2.Bitmaps[n]? = some sa2.Bitmaps[n] := List.getElem?_eq_getElem h2
    obtain ⟨hlt1, hb1⟩ := inv1.bits _ _ hw1
    obtain ⟨hlt2, hb2⟩ := inv2.bits _ _ hw2
    rw [hw1, hw2]
    congr 1
    apply Nat.eq_of_testBit_eq
    intro b
    by_cases hb : b < 64
    · have e1 := hb1 b hb
      have e2 := hb2 b hb
      cases h : sa1.Bitmaps[n].testBit b <;> cases h' : sa2.Bitmaps[n].testBit b <;> simp_all
    · have hp : 2 ^ 64 ≤ 2 ^ b := Nat.pow_le_pow_right (by norm_num) (by omega)
      rw [Nat.testBit_lt_two_pow (lt_of_lt_of_le hlt1 hp),
        Nat.testBit_lt_two_pow (lt_of_lt_of_le hlt2 hp)]
  · rw [List.getElem?_eq_none (by rw [inv1.lenB]; omega),
      List.getElem?_eq_none (by rw [inv2.lenB]; omega)]

/-- Whenever the lengths of the two arguments agree, `Init` reads nothing of the receiver
but `Cnt`. -/
theorem Init_reads_Cnt_only {α : Type} (cv : Converter α) (sa : CompactedArray)
    (I : List Nat) (V : List α) (hlen : I.length = V.length) :
    Init cv sa I (.slice V) = Init cv ⟨sa.Cnt, [], [], []⟩ I (.slice V) := by
  unfold Init
  simp only []
  rw [if_neg (not_not.2 hlen), if_neg (not_not.2 hlen)]

/-- After `Init` on a receiver whose `Cnt` was 7 the offsets start at 7, and `Get(63)`
slices the 8-byte `Elts` at byte `4 * 7 = 28`: it panics. -/
theorem Get_panics_after_Init_on_used_receiver :
    Init u32Conv ⟨7, [1], [5], [9]⟩ [63, 64] (.slice [10, 20])
      = .ret none ⟨9, [9223372036854775808, 1], [7, 8], [0, 0, 0, 10, 0, 0, 0, 20]⟩ ∧
    Get u32Conv ⟨9, [9223372036854775808, 1], [7, 8], [0, 0, 0, 10, 0, 0, 0, 20]⟩ 63
      = .panic := by
  decide

/-! ## The claims -/

/-- C1 (code defect): `[4294967295]` is a strictly ascending sequence of `uint32` indices,
yet `Init` on a zero-valued receiver panics on it for every Converter and every element
instead of returning `nil`: `capacity` wraps to 0, no bitmap word is allocated, and
`appendElt` indexes `Bitmaps` out of range. -/
theorem C1_Init_panics_at_max_index :
    [4294967295].Pairwise (fun a b => a < b) ∧ (∀ x ∈ [4294967295], x < 2 ^ 32) ∧
    ∀ (α : Type) (cv : Converter α) (v : α),
      Init cv CompactedArray.zero [4294967295] (.slice [v]) = .panic := by
  refine ⟨by decide, by decide, ?_⟩
  intro α cv v
  have hb : initBmCnt [4294967295] = 0 := by decide
  unfold Init
  simp only [hb]
  split
  · simp at *
  · split
    · rfl
    · simp [initLoop, appendElt, bmBit]

/-- C2 (absence): when `Init` on a zero-valued receiver returns `nil` for a strictly
ascending `uint32` index sequence `I` and a same-length element sequence `V`, every
`uint32` index that is not an element of `I` is reported absent: `Has` returns `false`
and `Get` returns `nil`. -/
theorem C2_absence {α : Type} (cv : Converter α) (I : List Nat) (V : List α)
    (sa : CompactedArray) (idx : Nat)
    (_hI : ∀ x ∈ I, x < 2 ^ 32) (_hasc : I.Pairwise (fun a b => a < b))
    (_hlen : I.length = V.length)
    (h : Init cv CompactedArray.zero I (.slice V) = .ret none sa)
    (_hidx : idx < 2 ^ 32) (hni : idx ∉ I) :
    Has sa idx = some false ∧ Get cv sa idx = .nil := by
  obtain ⟨_, inv⟩ := Init_ok cv _ sa I V (by simp [CompactedArray.zero]) h
  have hm : initBmCnt I < 2 ^ 32 := lt_of_le_of_lt (initBmCnt_le I) (by norm_num)
  refine ⟨?_, inv.Get_not_mem idx hni⟩
  rw [inv.Has_eq hm idx]
  simp [hni]

/-- C2, at scenario A (`I = [2, 5, 9]`) and the unset index 3. -/
theorem C2_absence_witness :
    Has ⟨3, [548], [0], [0, 0, 0, 10, 0, 0, 0, 20, 0, 0, 0, 30]⟩ 3 = some false ∧
    Get u32Conv ⟨3, [548], [0], [0, 0, 0, 10, 0, 0, 0, 20, 0, 0, 0, 30]⟩ 3 = .nil :=
  C2_absence u32Conv [2, 5, 9] [10, 20, 30] _ 3 (by decide) (by decide) rfl (by decide)
    (by decide) (by decide)

/-- C3 (rank correctness): for every 64-bit word `n` and every `iBit` with
`0 ≤ iBit ≤ 64`, `PopCnt64Before n iBit` is the number of positions `j < iBit` at which
bit `j` of `n` is 1; in particular it is 0 for `iBit = 0` and the population count of the
whole word for `iBit = 64`. -/
theorem C3_rank_correct (n iBit : Nat) (hn : n < 2 ^ 64) (hi : iBit ≤ 64) :
    Bit.PopCnt64Before n iBit = ((List.range iBit).filter (fun j => n.testBit j)).length ∧
    Bit.PopCnt64Before n 0 = 0 ∧
    Bit.PopCnt64Before n 64 = ((List.range 64).filter (fun j => n.testBit j)).length := by
  refine ⟨Bit.PopCnt64Before_eq_cntBits n iBit hn hi, ?_,
    Bit.PopCnt64Before_eq_cntBits n 64 hn (le_refl _)⟩
  rw [Bit.PopCnt64Before_eq_cntBits n 0 hn (by norm_num)]
  rfl

/-- C3, at the word `3 = ...011` of the source comment and `iBit = 2`. -/
theorem C3_rank_correct_witness :
    Bit.PopCnt64Before 3 2 = ((List.range 2).filter (fun j => (3 : Nat).testBit j)).length ∧
    Bit.PopCnt64Before 3 0 = 0 ∧
    Bit.PopCnt64Before 3 64 = ((List.range 64).filter (fun j => (3 : Nat).testBit j)).length :=
  C3_rank_correct 3 2 (by norm_num) (by norm_num)

/-- C4 (code defect): on the index sequence `[100, 5]`, whose second index is not above
the first, `Init` on a zero-valued receiver panics for every Converter and every two
elements instead of returning `ErrIndexNotAscending`: one bitmap word is allocated for
`capacity = 6`, and `appendElt(100, _)` indexes `Bitmaps[1]` before index 5 is compared
with its predecessor. -/
theorem C4_Init_panics_on_descending :
    ∀ (α : Type) (cv : Converter α) (a b : α),
      Init cv CompactedArray.zero [100, 5] (.slice [a, b]) = .panic := by
  intro α cv a b
  have hb : initBmCnt [100, 5] = 1 := by decide
  unfold Init
  simp only [hb]
  split
  · simp at *
  · split
    · rfl
    · simp [initLoop, appendElt, bmBit]

/-- C5 (length mismatch): for every receiver, every index sequence `I` and every element
sequence `V` with `len(I) != len(V)`, `Init` returns `ErrIndexLen`, whatever the contents
of `I`; the receiver is left as it was. -/
theorem C5_length_mismatch {α : Type} (cv : Converter α) (sa : CompactedArray)
    (I : List Nat) (V : List α) (hlen : I.length ≠ V.length) :
    Init cv sa I (.slice V) = .ret (some .ErrIndexLen) sa := by
  unfold Init
  simp only []
  rw [if_pos hlen]

/-- C5, at `I = [3, 1]` and one element. -/
theorem C5_length_mismatch_witness :
    Init u32Conv CompactedArray.zero [3, 1] (.slice [7])
      = .ret (some .ErrIndexLen) CompactedArray.zero :=
  C5_length_mismatch u32Conv CompactedArray.zero [3, 1] [7] (by decide)

/-- C6 (the claim fails): on `I = [5, 3]` `Init` returns `ErrIndexNotAscending` after it
has replaced `Bitmaps` and `Offsets` and appended the first element: the receiver is no
longer the zero value it was before the call. -/
theorem C6_receiver_mutated_on_error :
    Init u32Conv CompactedArray.zero [5, 3] (.slice [10, 20])
      = .ret (some .ErrIndexNotAscending) ⟨1, [32], [0], [0, 0, 0, 10]⟩ ∧
    (⟨1, [32], [0], [0, 0, 0, 10]⟩ : CompactedArray) ≠ CompactedArray.zero := by
  decide

/-- C6 (amended): when `Init` returns an error, either the error is `ErrIndexLen`, the
lengths differ and the receiver is unchanged; or the error is `ErrIndexNotAscending`,
raised at a position `k > 0` with `I[k] <= I[k-1]`, and the receiver has been rebuilt
from the part of the input before `k`: `Bitmaps` and `Offsets` are the freshly allocated
slices of `bmCnt` entries, `Elts` is the concatenation of the first `k` marshalled
elements and `Cnt` is its old value plus `k` (mod `2^32`). -/
theorem C6_error_state {α : Type} (cv : Converter α) (sa sa1 : CompactedArray)
    (I : List Nat) (V : List α) (err : InitError) (hc : sa.Cnt < 2 ^ 32)
    (h : Init cv sa I (.slice V) = .ret (some err) sa1) :
    (err = .ErrIndexLen ∧ I.length ≠ V.length ∧ sa1 = sa) ∨
    (err = .ErrIndexNotAscending ∧ I.length = V.length ∧
      ∃ k a b, 0 < k ∧ I[k]? = some a ∧ I[k - 1]? = some b ∧ a ≤ b ∧
        sa1.Bitmaps.length = initBmCnt I ∧ sa1.Offsets.length = initBmCnt I ∧
        sa1.Elts = ((V.take k).map cv.Marshal).flatten ∧
        sa1.Cnt = (sa.Cnt + k) % 2 ^ 32) := by
  unfold Init at h
  simp only [] at h
  by_cases hlen : I.length = V.length
  · rw [if_neg (not_not.2 hlen)] at h
    split at h
    · simp at h
    · right
      obtain ⟨herr, k, a, b, hk, hka, hkb, hab, hB, hO, hE, hC⟩ :=
        initLoop_err cv I V 0 0
          ⟨sa.Cnt, List.replicate (initBmCnt I) 0, List.replicate (initBmCnt I) 0, []⟩
          sa1 err hc h
      refine ⟨herr, hlen, k, a, b, by omega, hka, ?_, hab, by simpa using hB,
        by simpa using hO, by simpa using hE, hC⟩
      cases k with
      | zero => omega
      | succ k => simpa using hkb
  · rw [if_pos hlen] at h
    left
    simp only [InitOutcome.ret.injEq, Option.some.injEq] at h
    exact ⟨h.1.symm, hlen, h.2.symm⟩

/-- C6 (amended), at `I = [5, 3]`. -/
theorem C6_error_state_witness :
    Init u32Conv CompactedArray.zero [5, 3] (.slice [10, 20])
      = .ret (some .ErrIndexNotAscending) ⟨1, [32], [0], [0, 0, 0, 10]⟩ ∧
    ((InitError.ErrIndexNotAscending = InitError.ErrIndexLen ∧
        ([5, 3] : List Nat).length ≠ ([10, 20] : List Nat).length ∧
        (⟨1, [32], [0], [0, 0, 0, 10]⟩ : CompactedArray) = CompactedArray.zero) ∨
      (InitError.ErrIndexNotAscending = InitError.ErrIndexNotAscending ∧
        ([5, 3] : List Nat).length = ([10, 20] : List Nat).length ∧
        ∃ k a b, 0 < k ∧ ([5, 3] : List Nat)[k]? = some a ∧
          ([5, 3] : List Nat)[k - 1]? = some b ∧ a ≤ b ∧
          (⟨1, [32], [0], [0, 0, 0, 10]⟩ : CompactedArray).Bitmaps.length = initBmCnt [5, 3] ∧
          (⟨1, [32], [0], [0, 0, 0, 10]⟩ : CompactedArray).Offsets.length = initBmCnt [5, 3] ∧
          (⟨1, [32], [0], [0, 0, 0, 10]⟩ : CompactedArray).Elts
            = ((([10, 20] : List Nat).take k).map u32Conv.Marshal).flatten ∧
          (⟨1, [32], [0], [0, 0, 0, 10]⟩ : CompactedArray).Cnt
            = (CompactedArray.zero.Cnt + k) % 2 ^ 32)) :=
  ⟨by decide, C6_error_state u32Conv CompactedArray.zero ⟨1, [32], [0], [0, 0, 0, 10]⟩
    [5, 3] [10, 20] .ErrIndexNotAscending (by decide) (by decide)⟩

/-- C7 (lookup never errors): on a structure produced by `Init` returning `nil` on a
zero-valued receiver, with `Marshal` producing exactly `GetMarshaledSize` bytes per
element, for every `uint32` index `Has` and `Get` complete without a panic: if the block
number passes the check against `len(Bitmaps)` and the bit is set, `Offsets` holds an
entry for the block (`Offsets` is as long as `Bitmaps`) and the byte offset `stIdx`
computed by `Get` satisfies `stIdx + GetMarshaledSize <= len(Elts)`. -/
theorem C7_lookup_in_bounds {α : Type} (cv : Converter α) (I : List Nat) (V : List α)
    (sa : CompactedArray) (idx : Nat) (_hI : ∀ x ∈ I, x < 2 ^ 32)
    (hmarshal : ∀ v, ((cv.Marshal v).length : Int) = cv.GetMarshaledSize [])
    (h : Init cv CompactedArray.zero I (.slice V) = .ret none sa) (_hidx : idx < 2 ^ 32) :
    Has sa idx ≠ none ∧ Get cv sa idx ≠ .panic ∧ sa.Offsets.length = sa.Bitmaps.length ∧
    ∀ word, sa.Bitmaps[(bmBit idx).1]? = some word → (word >>> (bmBit idx).2) &&& 1 ≠ 0 →
      ∃ base, sa.Offsets[(bmBit idx).1]? = some base ∧
        (getStIdx cv base word (bmBit idx).2 : Int) + cv.GetMarshaledSize []
          ≤ (sa.Elts.length : Int) := by
  obtain ⟨hlen, inv⟩ := Init_ok cv _ sa I V (by simp [CompactedArray.zero]) h
  have hm : initBmCnt I < 2 ^ 32 := lt_of_le_of_lt (initBmCnt_le I) (by norm_num)
  refine ⟨by rw [inv.Has_eq hm idx]; simp, ?_⟩
  rw [and_left_comm]
  refine ⟨by rw [inv.lenO, inv.lenB], ?_⟩
  rw [bmBit_eq]
  simp only []
  by_cases hmem : idx ∈ I
  · obtain ⟨k, hk⟩ := List.mem_iff_getElem?.1 hmem
    obtain ⟨word, base, hw, hoff, hslot, hget⟩ := inv.Get_mem hm k idx hk
    have hkn : k < I.length := by
      by_contra hge
      rw [List.getElem?_eq_none (by omega)] at hk
      exact Option.noConfusion hk
    have hn := inv.length_lt
    simp only [CompactedArray.zero, Nat.zero_add] at hslot
    rw [Nat.mod_eq_of_lt (a := k) (by omega)] at hslot
    have hkV : k < V.length := hlen ▸ hkn
    have hs : cv.GetMarshaledSize [] = (((cv.Marshal V[k]).length : Nat) : Int) :=
      (hmarshal _).symm
    generalize (cv.Marshal V[k]).length = s at hs
    have hmar : ∀ v, (cv.Marshal v).length = s := by
      intro v
      have := hmarshal v
      rw [hs] at this
      exact_mod_cast this
    have hle := getStIdx_le cv s base word (idx % 64) k hs hslot
    have hEl : sa.Elts.length = V.length * s := by
      rw [inv.elts, length_flatten_marshal _ _ hmar]
    have hbound : getStIdx cv base word (idx % 64) + s ≤ sa.Elts.length := by
      rw [hEl, ← hlen]
      calc getStIdx cv base word (idx % 64) + s ≤ s * k + s := Nat.add_le_add_right hle _
        _ = (k + 1) * s := by ring
        _ ≤ I.length * s := Nat.mul_le_mul_right _ hkn
    refine ⟨?_, ?_⟩
    · rw [hget, if_pos (by omega)]
      exact fun hcontra => GetOutcome.noConfusion hcontra
    · intro word1 hw1 _
      rw [hw] at hw1
      have : word = word1 := Option.some.inj hw1
      subst this
      refine ⟨base, hoff, ?_⟩
      rw [hs]
      exact_mod_cast hbound
  · refine ⟨by rw [inv.Get_not_mem idx hmem]; exact fun hc => GetOutcome.noConfusion hc, ?_⟩
    intro word hw hbit
    exfalso
    obtain ⟨_, h2⟩ := inv.bits _ _ hw
    have h3 := h2 (idx % 64) (Nat.mod_lt _ (by norm_num))
    rw [Nat.div_add_mod] at h3
    apply hbit
    rw [shift_and_one_eq_zero]
    cases hb : word.testBit (idx % 64) with
    | false => rfl
    | true => exact absurd (h3.1 hb) hmem

/-- C7, at scenario A (`I = [2, 5, 9]`) and the present index 5. -/
theorem C7_lookup_in_bounds_witness :
    Has ⟨3, [548], [0], [0, 0, 0, 10, 0, 0, 0, 20, 0, 0, 0, 30]⟩ 5 ≠ none ∧
    Get u32Conv ⟨3, [548], [0], [0, 0, 0, 10, 0, 0, 0, 20, 0, 0, 0, 30]⟩ 5 ≠ .panic ∧
    (⟨3, [548], [0], [0, 0, 0, 10, 0, 0, 0, 20, 0, 0, 0, 30]⟩ : CompactedArray).Offsets.length
      = (⟨3, [548], [0], [0, 0, 0, 10, 0, 0, 0, 20, 0, 0, 0, 30]⟩ :
          CompactedArray).Bitmaps.length ∧
    ∀ word,
      (⟨3, [548], [0], [0, 0, 0, 10, 0, 0, 0, 20, 0, 0, 0, 30]⟩ :
          CompactedArray).Bitmaps[(bmBit 5).1]? = some word →
      (word >>> (bmBit 5).2) &&& 1 ≠ 0 →
      ∃ base,
        (⟨3, [548], [0], [0, 0, 0, 10, 0, 0, 0, 20, 0, 0, 0, 30]⟩ :
            CompactedArray).Offsets[(bmBit 5).1]? = some base ∧
        (getStIdx u32Conv base word (bmBit 5).2 : Int) + u32Conv.GetMarshaledSize []
          ≤ (((⟨3, [548], [0], [0, 0, 0, 10, 0, 0, 0, 20, 0, 0, 0, 30]⟩ :
            CompactedArray).Elts.length : Nat) : Int) :=
  C7_lookup_in_bounds u32Conv [2, 5, 9] [10, 20, 30] _ 5 (by decide) (fun _ => rfl)
    (by decide) (by decide)

/-- C8 (offset invariant): after `Init` on a zero-valued receiver returned `nil` for a
strictly ascending `uint32` index sequence `I`, for every block `w` whose bitmap word is
not zero, `Offsets[w]` is the number of elements of `I` strictly less than `64 * w`. -/
theorem C8_offset_invariant {α : Type} (cv : Converter α) (I : List Nat) (V : List α)
    (sa : CompactedArray) (_hI : ∀ x ∈ I, x < 2 ^ 32)
    (_hasc : I.Pairwise (fun a b => a < b))
    (h : Init cv CompactedArray.zero I (.slice V) = .ret none sa)
    (w word : Nat) (hw : sa.Bitmaps[w]? = some word) (hne : word ≠ 0) :
    sa.Offsets[w]? = some ((I.filter (fun y => decide (y < 64 * w))).length) := by
  obtain ⟨_, inv⟩ := Init_ok cv _ sa I V (by simp [CompactedArray.zero]) h
  have hoff := inv.offs w word hw hne
  have h1 : countBelow I (64 * w) ≤ I.length := List.length_filter_le _ _
  have h2 := inv.length_lt
  rw [hoff]
  simp only [CompactedArray.zero, Nat.zero_add]
  rw [Nat.mod_eq_of_lt (by omega)]
  rfl

/-- C8, at scenario B (`I = [63, 64]`): `Offsets[1] = 1`. -/
theorem C8_offset_invariant_witness :
    (⟨2, [9223372036854775808, 1], [0, 1], [0, 0, 0, 10, 0, 0, 0, 20]⟩ :
        CompactedArray).Offsets[1]?
      = some (([63, 64].filter (fun y => decide (y < 64 * 1))).length) :=
  C8_offset_invariant u32Conv [63, 64] [10, 20] _ (by decide) (by decide) (by decide)
    1 1 (by decide) (by decide)

/-- C9 (code defect): for the last index `4294967295` the exact capacity is `2^32`, which
needs `67108864` words, but the `bmCnt` computed by `Init` is 0; the same happens from
`4294967232 = 2^32 - 64` on, while `4294967231` still gives the expected `67108863`. -/
theorem C9_block_count_wraps :
    initBmCnt [4294967295] = 0 ∧ (4294967295 + 1 + 63) / 64 = 67108864 ∧
    initBmCnt [4294967232] = 0 ∧ (4294967232 + 1 + 63) / 64 = 67108864 ∧
    initBmCnt [4294967231] = 67108863 ∧ (4294967231 + 1 + 63) / 64 = 67108863 := by
  decide

/-- C10 (element store layout): after `Init` on a zero-valued receiver returned `nil` for
indices `I` and values `V`, with `Marshal` producing exactly `recordSize =
GetMarshaledSize` bytes, `Elts` is the concatenation of the marshalled values in input
order, `len(Elts) = len(V) * recordSize`, `Cnt = len(V)`, and bytes
`[k * recordSize, (k + 1) * recordSize)` of `Elts` are `Marshal(V[k])`. -/
theorem C10_element_store {α : Type} (cv : Converter α) (I : List Nat) (V : List α)
    (sa : CompactedArray) (recordSize : Nat)
    (_hsize : cv.GetMarshaledSize [] = (recordSize : Int))
    (hmarshal : ∀ v, (cv.Marshal v).length = recordSize)
    (h : Init cv CompactedArray.zero I (.slice V) = .ret none sa) :
    sa.Elts = (V.map cv.Marshal).flatten ∧
    sa.Elts.length = V.length * recordSize ∧
    sa.Cnt = V.length ∧
    ∀ k v, V[k]? = some v →
      (sa.Elts.drop (k * recordSize)).take recordSize = cv.Marshal v := by
  obtain ⟨hlen, inv⟩ := Init_ok cv _ sa I V (by simp [CompactedArray.zero]) h
  refine ⟨inv.elts, ?_, ?_, ?_⟩
  · rw [inv.elts, length_flatten_marshal _ _ hmarshal]
  · have h2 := inv.length_lt
    rw [inv.cnt, ← hlen]
    simp only [CompactedArray.zero, Nat.zero_add]
    exact Nat.mod_eq_of_lt (by omega)
  · intro k v hk
    rw [inv.elts, drop_flatten_marshal _ _ hmarshal V k v hk]
    exact List.take_left' (hmarshal v)

/-- C10, at the sparse input `I = [2, 5, 9000000]`: three 4-byte records are stored. -/
theorem C10_element_store_witness :
    ∃ sa, Init u32Conv CompactedArray.zero [2, 5, 9000000] (.slice [1, 2, 3]) = .ret none sa ∧
      sa.Elts = [0, 0, 0, 1, 0, 0, 0, 2, 0, 0, 0, 3] ∧ sa.Elts.length = 3 * 4 ∧ sa.Cnt = 3 := by
  obtain ⟨sa, h⟩ := Init_succeeds u32Conv CompactedArray.zero [2, 5, 9000000] [1, 2, 3]
    (by decide) (by decide) rfl (by decide)
  have hc := C10_element_store u32Conv [2, 5, 9000000] [1, 2, 3] sa 4 rfl (fun _ => rfl) h
  exact ⟨sa, h, by rw [hc.1]; rfl, hc.2.1, hc.2.2.1⟩

/-- C11 (slot computation): after `Init` on a zero-valued receiver returned `nil` for a
strictly ascending index sequence `I` whose indices are below `2^32 - 64`, for every
position `k` of `I`, with `(w, b) = bmBit(I[k])`, `Get(I[k])` passes the test against
`len(Bitmaps)` and the bit test (it does not return `nil`), reads `Offsets[w]`, and the
slot `Offsets[w] + PopCnt64Before(Bitmaps[w], b)` it computes equals `k`, also after the
reduction modulo `2^32` of the `uint32` addition: the byte offset `stIdx` of `Get` is
`uint32(GetMarshaledSize) * k mod 2^32`, and `Get` decodes `Elts[stIdx:]`. -/
theorem C11_slot {α : Type} (cv : Converter α) (I : List Nat) (V : List α)
    (sa : CompactedArray) (_hasc : I.Pairwise (fun a b => a < b))
    (_hI : ∀ x ∈ I, x < 2 ^ 32 - 64)
    (h : Init cv CompactedArray.zero I (.slice V) = .ret none sa)
    (k x : Nat) (hk : I[k]? = some x) :
    ∃ word base, sa.Bitmaps[(bmBit x).1]? = some word ∧
      sa.Offsets[(bmBit x).1]? = some base ∧
      base + Bit.PopCnt64Before word (bmBit x).2 = k ∧
      (base + Bit.PopCnt64Before word (bmBit x).2) % 2 ^ 32 = k ∧
      getStIdx cv base word (bmBit x).2
        = ((cv.GetMarshaledSize [] % 2 ^ 32).toNat * k) % 2 ^ 32 ∧
      Get cv sa x =
        (if getStIdx cv base word (bmBit x).2 ≤ sa.Elts.length then
          .val (cv.Unmarshal (sa.Elts.drop (getStIdx cv base word (bmBit x).2))).2
        else .panic) ∧
      Get cv sa x ≠ .nil := by
  obtain ⟨_, inv⟩ := Init_ok cv _ sa I V (by simp [CompactedArray.zero]) h
  have hm : initBmCnt I < 2 ^ 32 := lt_of_le_of_lt (initBmCnt_le I) (by norm_num)
  obtain ⟨word, hw, hoff, hslot⟩ := inv.slot k x hk
  obtain ⟨word1, base1, hw1, hoff1, _, hget⟩ := inv.Get_mem hm k x hk
  have hn := inv.length_lt
  have hkn : k < I.length := by
    by_contra hge
    rw [List.getElem?_eq_none (by omega)] at hk
    exact Option.noConfusion hk
  have hcb : countBelow I (64 * (x / 64)) ≤ I.length := List.length_filter_le _ _
  simp only [CompactedArray.zero, Nat.zero_add] at hoff
  rw [Nat.mod_eq_of_lt (by omega)] at hoff
  rw [hw] at hw1
  rw [hoff] at hoff1
  have e1 : word = word1 := Option.some.inj hw1
  have e2 : countBelow I (64 * (x / 64)) = base1 := Option.some.inj hoff1
  subst e1
  subst e2
  have hmod : (countBelow I (64 * (x / 64)) + Bit.PopCnt64Before word (x % 64)) % 2 ^ 32 = k := by
    rw [hslot]; exact Nat.mod_eq_of_lt (by omega)
  rw [bmBit_eq]
  refine ⟨word, _, hw, hoff, hslot, hmod, ?_, hget, ?_⟩
  · unfold getStIdx
    simp only []
    rw [hmod]
  · rw [hget]
    split <;> exact fun hc => GetOutcome.noConfusion hc

/-- C11, at scenario B (`I = [63, 64]`) and position 1. -/
theorem C11_slot_witness :
    ∃ word base,
      (⟨2, [9223372036854775808, 1], [0, 1], [0, 0, 0, 10, 0, 0, 0, 20]⟩ :
        CompactedArray).Bitmaps[(bmBit 64).1]? = some word ∧
      (⟨2, [9223372036854775808, 1], [0, 1], [0, 0, 0, 10, 0, 0, 0, 20]⟩ :
        CompactedArray).Offsets[(bmBit 64).1]? = some base ∧
      base + Bit.PopCnt64Before word (bmBit 64).2 = 1 ∧
      (base + Bit.PopCnt64Before word (bmBit 64).2) % 2 ^ 32 = 1 ∧
      getStIdx u32Conv base word (bmBit 64).2
        = ((u32Conv.GetMarshaledSize [] % 2 ^ 32).toNat * 1) % 2 ^ 32 ∧
      Get u32Conv ⟨2, [9223372036854775808, 1], [0, 1], [0, 0, 0, 10, 0, 0, 0, 20]⟩ 64 =
        (if getStIdx u32Conv base word (bmBit 64).2
            ≤ (⟨2, [9223372036854775808, 1], [0, 1], [0, 0, 0, 10, 0, 0, 0, 20]⟩ :
              CompactedArray).Elts.length then
          .val (u32Conv.Unmarshal
            ((⟨2, [9223372036854775808, 1], [0, 1], [0, 0, 0, 10, 0, 0, 0, 20]⟩ :
              CompactedArray).Elts.drop (getStIdx u32Conv base word (bmBit 64).2))).2
        else .panic) ∧
      Get u32Conv ⟨2, [9223372036854775808, 1], [0, 1], [0, 0, 0, 10, 0, 0, 0, 20]⟩ 64
        ≠ .nil :=
  C11_slot u32Conv [63, 64] [10, 20] _ (by decide) (by decide) (by decide) 1 64 (by decide)

/-- C12 (the claim fails): with `Cnt = 4294967295` the increment of `appendElt` wraps
and `Cnt` becomes 0 instead of growing by 1 (the state is the one `Init` reaches for
`I = [0]` on a receiver whose `Cnt` is `4294967295`); and on a state whose `Offsets` is
shorter than `Bitmaps` (a value of the struct type, though `Init` allocates both slices
with one length) the first touch of a block panics. -/
theorem C12_appendElt_wraps_or_panics :
    appendElt ⟨4294967295, [0], [0], []⟩ 0 [7] = some ⟨0, [1], [4294967295], [7]⟩ ∧
    Init u32Conv ⟨4294967295, [], [], []⟩ [0] (.slice [7])
      = .ret none ⟨0, [1], [4294967295], [0, 0, 0, 7]⟩ ∧
    appendElt ⟨0, [0], [], []⟩ 0 [7] = none := by
  decide

/-- C12 (amended): on every state and for every index whose block `w` is below
`len(Bitmaps)` and below `len(Offsets)`, `appendElt` does not panic; it sets `Bitmaps[w]`
to its old value OR `1 << (index & 63)` and leaves every other bitmap word unchanged; it
sets `Offsets[w]` to the old `Cnt` when the old `Bitmaps[w]` was 0 and leaves it unchanged
otherwise, leaving every other entry of `Offsets` unchanged in both cases; it appends
`elt` to `Elts` and sets `Cnt` to `(Cnt + 1) mod 2^32`. -/
theorem C12_appendElt_frame (sa : CompactedArray) (index : Nat) (elt : List Nat) (old : Nat)
    (hw : sa.Bitmaps[(bmBit index).1]? = some old)
    (hO : (bmBit index).1 < sa.Offsets.length) :
    ∃ sa1, appendElt sa index elt = some sa1 ∧
      sa1.Bitmaps[(bmBit index).1]? = some (old ||| (1 <<< (bmBit index).2)) ∧
      (∀ j, j ≠ (bmBit index).1 → sa1.Bitmaps[j]? = sa.Bitmaps[j]?) ∧
      sa1.Bitmaps.length = sa.Bitmaps.length ∧ sa1.Offsets.length = sa.Offsets.length ∧
      (old = 0 → sa1.Offsets[(bmBit index).1]? = some sa.Cnt) ∧
      (old ≠ 0 → sa1.Offsets[(bmBit index).1]? = sa.Offsets[(bmBit index).1]?) ∧
      (∀ j, j ≠ (bmBit index).1 → sa1.Offsets[j]? = sa.Offsets[j]?) ∧
      sa1.Elts = sa.Elts ++ elt ∧ sa1.Cnt = (sa.Cnt + 1) % 2 ^ 32 := by
  rw [bmBit_eq] at hw hO ⊢
  simp only [] at hw hO ⊢
  have hlt : index / 64 < sa.Bitmaps.length := by
    by_contra hge
    rw [List.getElem?_eq_none (by omega)] at hw
    exact Option.noConfusion hw
  have hex : ∃ sa1, appendElt sa index elt = some sa1 := by
    unfold appendElt
    rw [bmBit_eq]
    simp only []
    rw [hw]
    by_cases h0 : old = 0
    · simp [h0, hO]
    · simp [h0]
  obtain ⟨sa1, ha⟩ := hex
  obtain ⟨word, hword, hB, hOf, _, hE, hC⟩ := appendElt_some sa sa1 index elt ha
  rw [hw] at hword
  have hwo : old = word := Option.some.inj hword
  subst hwo
  refine ⟨sa1, ha, ?_, ?_, ?_, ?_, ?_, ?_, ?_, hE, hC⟩
  · rw [hB, List.getElem?_set, if_pos rfl, if_pos hlt, Nat.shiftLeft_eq, Nat.one_mul]
  · intro j hj
    rw [hB, List.getElem?_set_ne (fun h => hj h.symm)]
  · rw [hB, List.length_set]
  · rw [hOf]; split <;> simp
  · intro h0
    rw [hOf, if_pos h0, List.getElem?_set, if_pos rfl, if_pos hO]
  · intro h0
    rw [hOf, if_neg h0]
  · intro j hj
    rw [hOf]
    split
    · rw [List.getElem?_set_ne (fun h => hj h.symm)]
    · rfl

/-- C12 (amended), at the first touch of block 1 by index 64 after index 63 was appended
(scenario B). -/
theorem C12_appendElt_frame_witness :
    ∃ sa1, appendElt ⟨1, [9223372036854775808, 0], [0, 0], [10]⟩ 64 [20] = some sa1 ∧
      sa1.Bitmaps[(bmBit 64).1]? = some (0 ||| (1 <<< (bmBit 64).2)) ∧
      (∀ j, j ≠ (bmBit 64).1 → sa1.Bitmaps[j]?
        = (⟨1, [9223372036854775808, 0], [0, 0], [10]⟩ : CompactedArray).Bitmaps[j]?) ∧
      sa1.Bitmaps.length
        = (⟨1, [9223372036854775808, 0], [0, 0], [10]⟩ : CompactedArray).Bitmaps.length ∧
      sa1.Offsets.length
        = (⟨1, [9223372036854775808, 0], [0, 0], [10]⟩ : CompactedArray).Offsets.length ∧
      (0 = 0 → sa1.Offsets[(bmBit 64).1]?
        = some (⟨1, [9223372036854775808, 0], [0, 0], [10]⟩ : CompactedArray).Cnt) ∧
      (0 ≠ 0 → sa1.Offsets[(bmBit 64).1]?
        = (⟨1, [9223372036854775808, 0], [0, 0], [10]⟩ : CompactedArray).Offsets[(bmBit 64).1]?) ∧
      (∀ j, j ≠ (bmBit 64).1 → sa1.Offsets[j]?
        = (⟨1, [9223372036854775808, 0], [0, 0], [10]⟩ : CompactedArray).Offsets[j]?) ∧
      sa1.Elts = (⟨1, [9223372036854775808, 0], [0, 0], [10]⟩ : CompactedArray).Elts ++ [20] ∧
      sa1.Cnt = ((⟨1, [9223372036854775808, 0], [0, 0], [10]⟩ : CompactedArray).Cnt + 1) % 2 ^ 32 :=
  C12_appendElt_frame ⟨1, [9223372036854775808, 0], [0, 0], [10]⟩ 64 [20] 0 (by decide)
    (by decide)

/-- C13 (empty construction): `Init` with an empty index sequence and an empty element
sequence returns `nil` on every receiver; `capacity` is 0, `Bitmaps`, `Offsets` and `Elts`
are left with length 0 (`Cnt` keeps its value), and afterwards `Has` returns `false` and
`Get` returns `nil` for every index. -/
theorem C13_empty_construction {α : Type} (cv : Converter α) (sa : CompactedArray) :
    Init cv sa [] (.slice []) = .ret none ⟨sa.Cnt, [], [], []⟩ ∧
    initCapacity [] = 0 ∧ initBmCnt [] = 0 ∧
    ∀ idx, Has ⟨sa.Cnt, [], [], []⟩ idx = some false ∧
      Get cv ⟨sa.Cnt, [], [], []⟩ idx = .nil := by
  refine ⟨?_, by decide, by decide, ?_⟩
  · have hb : initBmCnt [] = 0 := by decide
    simp [Init, hb, initLoop, mulInt_zero_left]
  · intro idx
    simp [Has, Get]

/-- C14 (`Init` does not reset `Cnt`): for every receiver whose `Cnt` is the `uint32` value
`c`, every strictly ascending index sequence `I` below `2^32 - 64` and every same-length
`V` (the Converter reporting a non-negative record size, and `n` times that size fitting
into an `int`, so that the capacity passed to `make` is not negative), `Init` returns
`nil`; it reads
nothing of the receiver but `Cnt`; `Bitmaps` and `Elts` are the ones built on a zero-valued
receiver and `Offsets` has the same length; `Cnt` is `(c + n) mod 2^32`; the offset of
every non-empty block `w` is `(c + number of elements of I below 64 * w) mod 2^32`; and
the structure equals the one built on a zero-valued receiver if and only if `c = 0`. -/
theorem C14_Init_keeps_Cnt {α : Type} (cv : Converter α) (sa : CompactedArray)
    (I : List Nat) (V : List α) (hc : sa.Cnt < 2 ^ 32)
    (hasc : I.Pairwise (fun a b => a < b)) (hI : ∀ x ∈ I, x < 2 ^ 32 - 64)
    (hlen : I.length = V.length) (hsz : 0 ≤ cv.GetMarshaledSize [])
    (hcap : (V.length : Int) * cv.GetMarshaledSize [] < 2 ^ 63) :
    ∃ sa1 z1, Init cv sa I (.slice V) = .ret none sa1 ∧
      Init cv CompactedArray.zero I (.slice V) = .ret none z1 ∧
      Init cv ⟨sa.Cnt, [], [], []⟩ I (.slice V) = .ret none sa1 ∧
      sa1.Bitmaps = z1.Bitmaps ∧ sa1.Elts = z1.Elts ∧
      sa1.Offsets.length = z1.Offsets.length ∧
      sa1.Cnt = (sa.Cnt + I.length) % 2 ^ 32 ∧
      (∀ w word, sa1.Bitmaps[w]? = some word → word ≠ 0 →
        sa1.Offsets[w]?
          = some ((sa.Cnt + (I.filter (fun y => decide (y < 64 * w))).length) % 2 ^ 32)) ∧
      (sa1 = z1 ↔ sa.Cnt = 0) := by
  have hsz1 : 0 ≤ mulInt (V.length : Int) (cv.GetMarshaledSize []) :=
    mulInt_nonneg_of_fits _ _ hsz hcap
  obtain ⟨sa1, h1⟩ := Init_succeeds cv sa I V hasc hI hlen hsz1
  obtain ⟨z1, h0⟩ := Init_succeeds cv CompactedArray.zero I V hasc hI hlen hsz1
  obtain ⟨_, inv1⟩ := Init_ok cv sa sa1 I V hc h1
  obtain ⟨_, inv0⟩ := Init_ok cv _ z1 I V (by simp [CompactedArray.zero]) h0
  have hn := inv0.length_lt
  refine ⟨sa1, z1, h1, h0, ?_, inv1.bitmaps_unique inv0, ?_, ?_, inv1.cnt, inv1.offs, ?_⟩
  · rw [← Init_reads_Cnt_only cv sa I V hlen]; exact h1
  · rw [inv1.elts, inv0.elts]
  · rw [inv1.lenO, inv0.lenO]
  · constructor
    · intro heq
      have hcnt := inv1.cnt
      rw [heq, inv0.cnt] at hcnt
      simp only [CompactedArray.zero, Nat.zero_add] at hcnt
      omega
    · intro h00
      have e : Init cv sa I (.slice V) = Init cv CompactedArray.zero I (.slice V) := by
        rw [Init_reads_Cnt_only cv sa I V hlen, h00]
        rfl
      rw [h1, h0] at e
      simp only [InitOutcome.ret.injEq, true_and] at e
      exact e

/-- C14, at `I = [63, 64]` on a receiver whose `Cnt` is 7. -/
theorem C14_Init_keeps_Cnt_witness :
    Init u32Conv ⟨7, [1], [5], [9]⟩ [63, 64] (.slice [10, 20])
      = .ret none ⟨9, [9223372036854775808, 1], [7, 8], [0, 0, 0, 10, 0, 0, 0, 20]⟩ ∧
    ∃ sa1 z1, Init u32Conv ⟨7, [1], [5], [9]⟩ [63, 64] (.slice [10, 20]) = .ret none sa1 ∧
      Init u32Conv CompactedArray.zero [63, 64] (.slice [10, 20]) = .ret none z1 ∧
      Init u32Conv ⟨(⟨7, [1], [5], [9]⟩ : CompactedArray).Cnt, [], [], []⟩ [63, 64]
        (.slice [10, 20]) = .ret none sa1 ∧
      sa1.Bitmaps = z1.Bitmaps ∧ sa1.Elts = z1.Elts ∧
      sa1.Offsets.length = z1.Offsets.length ∧
      sa1.Cnt = ((⟨7, [1], [5], [9]⟩ : CompactedArray).Cnt + [63, 64].length) % 2 ^ 32 ∧
      (∀ w word, sa1.Bitmaps[w]? = some word → word ≠ 0 →
        sa1.Offsets[w]?
          = some (((⟨7, [1], [5], [9]⟩ : CompactedArray).Cnt
              + ([63, 64].filter (fun y => decide (y < 64 * w))).length) % 2 ^ 32)) ∧
      (sa1 = z1 ↔ (⟨7, [1], [5], [9]⟩ : CompactedArray).Cnt = 0) :=
  ⟨by decide, C14_Init_keeps_Cnt u32Conv ⟨7, [1], [5], [9]⟩ [63, 64] [10, 20] (by decide)
    (by decide) (by decide) rfl (by decide) (by decide)⟩

/-- C15 (bit-count invariant): after `Init` on a zero-valued receiver returned `nil` for a
strictly ascending index sequence `I`, the population counts
`PopCnt64Before(Bitmaps[w], 64)` of all words add up to `Cnt`, `Cnt` is `len(I)`, and bit
`b` of `Bitmaps[w]` is set if and only if `64 * w + b` is an element of `I`. -/
theorem C15_bit_count {α : Type} (cv : Converter α) (I : List Nat) (V : List α)
    (sa : CompactedArray) (_hI : ∀ x ∈ I, x < 2 ^ 32)
    (_hasc : I.Pairwise (fun a b => a < b))
    (h : Init cv CompactedArray.zero I (.slice V) = .ret none sa) :
    (sa.Bitmaps.map (fun word => Bit.PopCnt64Before word 64)).sum = sa.Cnt ∧
    sa.Cnt = I.length ∧
    ∀ w word b, sa.Bitmaps[w]? = some word → b < 64 →
      ((word >>> b) &&& 1 = 1 ↔ 64 * w + b ∈ I) := by
  obtain ⟨_, inv⟩ := Init_ok cv _ sa I V (by simp [CompactedArray.zero]) h
  have hn := inv.length_lt
  have hcnt : sa.Cnt = I.length := by
    rw [inv.cnt]
    simp only [CompactedArray.zero, Nat.zero_add]
    exact Nat.mod_eq_of_lt (by omega)
  refine ⟨?_, hcnt, ?_⟩
  · have hsum := inv.popcount_sum (initBmCnt I) (le_refl _)
    rw [← inv.lenB, List.take_length] at hsum
    rw [hsum, hcnt, inv.lenB]
    apply countBelow_all
    intro y hy
    have := inv.inRange y hy
    omega
  · intro w word b hw hb
    rw [shift_and_one_eq_one]
    exact (inv.bits w word hw).2 b hb

/-- C15, at scenario A (`I = [2, 5, 9]`). -/
theorem C15_bit_count_witness :
    ((⟨3, [548], [0], [0, 0, 0, 10, 0, 0, 0, 20, 0, 0, 0, 30]⟩ : CompactedArray).Bitmaps.map
        (fun word => Bit.PopCnt64Before word 64)).sum
      = (⟨3, [548], [0], [0, 0, 0, 10, 0, 0, 0, 20, 0, 0, 0, 30]⟩ : CompactedArray).Cnt ∧
    (⟨3, [548], [0], [0, 0, 0, 10, 0, 0, 0, 20, 0, 0, 0, 30]⟩ : CompactedArray).Cnt
      = [2, 5, 9].length ∧
    ∀ w word b,
      (⟨3, [548], [0], [0, 0, 0, 10, 0, 0, 0, 20, 0, 0, 0, 30]⟩ : CompactedArray).Bitmaps[w]?
        = some word → b < 64 →
      ((word >>> b) &&& 1 = 1 ↔ 64 * w + b ∈ [2, 5, 9]) :=
  C15_bit_count u32Conv [2, 5, 9] [10, 20, 30] _ (by decide) (by decide) (by decide)

/-- C16 (byte-offset arithmetic): `Get` computes `stIdx` as
`(GetMarshaledSize * (Offsets[w] + rank)) mod 2^32`; on a structure built by `Init`
returning `nil` on a zero-valued receiver, with `n * recordSize < 2^32`, for the `k`-th
inserted index this is the exact product `k * recordSize`, the `recordSize` bytes of `Elts`
from `stIdx` on are `Marshal(V[k])`, and `Get` decodes the buffer that starts there. -/
theorem C16_byte_offset {α : Type} (cv : Converter α) (I : List Nat) (V : List α)
    (sa : CompactedArray) (recordSize : Nat)
    (hsize : cv.GetMarshaledSize [] = (recordSize : Int))
    (hmarshal : ∀ v, (cv.Marshal v).length = recordSize)
    (h : Init cv CompactedArray.zero I (.slice V) = .ret none sa)
    (hfit : V.length * recordSize < 2 ^ 32)
    (k x : Nat) (v : α) (hk : I[k]? = some x) (hv : V[k]? = some v) :
    ∃ word base, sa.Bitmaps[(bmBit x).1]? = some word ∧
      sa.Offsets[(bmBit x).1]? = some base ∧
      getStIdx cv base word (bmBit x).2
        = (recordSize * (base + Bit.PopCnt64Before word (bmBit x).2)) % 2 ^ 32 ∧
      getStIdx cv base word (bmBit x).2 = k * recordSize ∧
      (sa.Elts.drop (getStIdx cv base word (bmBit x).2)).take recordSize = cv.Marshal v ∧
      Get cv sa x = .val (cv.Unmarshal (sa.Elts.drop (k * recordSize))).2 := by
  obtain ⟨_, inv⟩ := Init_ok cv _ sa I V (by simp [CompactedArray.zero]) h
  have hm : initBmCnt I < 2 ^ 32 := lt_of_le_of_lt (initBmCnt_le I) (by norm_num)
  obtain ⟨word, base, hw, hoff, hslot, hget⟩ := inv.Get_mem hm k x hk
  have hkn : k < V.length := by
    by_contra hge
    rw [List.getElem?_eq_none (by omega)] at hv
    exact Option.noConfusion hv
  simp only [CompactedArray.zero, Nat.zero_add] at hslot
  rw [Nat.mod_eq_of_lt (a := k) (by have := inv.length_lt; omega)] at hslot
  have hst := getStIdx_eq cv recordSize base word (x % 64) k V.length hsize hslot hkn
    (le_of_lt hfit)
  have hEl : sa.Elts.length = V.length * recordSize := by
    rw [inv.elts, length_flatten_marshal _ _ hmarshal]
  have hle : k * recordSize ≤ V.length * recordSize := Nat.mul_le_mul_right _ (le_of_lt hkn)
  rw [bmBit_eq]
  refine ⟨word, base, hw, hoff, ?_, hst, ?_, ?_⟩
  · unfold getStIdx
    simp only []
    rw [hsize, toNat_size_mod, ← Nat.mul_mod]
  · rw [hst, inv.elts, drop_flatten_marshal _ _ hmarshal V k v hv]
    exact List.take_left' (hmarshal v)
  · rw [hget, hst, if_pos (by omega)]

/-- C16, at scenario A (`I = [2, 5, 9]`, 4-byte records) and position 1. -/
theorem C16_byte_offset_witness :
    ∃ word base,
      (⟨3, [548], [0], [0, 0, 0, 10, 0, 0, 0, 20, 0, 0, 0, 30]⟩ :
        CompactedArray).Bitmaps[(bmBit 5).1]? = some word ∧
      (⟨3, [548], [0], [0, 0, 0, 10, 0, 0, 0, 20, 0, 0, 0, 30]⟩ :
        CompactedArray).Offsets[(bmBit 5).1]? = some base ∧
      getStIdx u32Conv base word (bmBit 5).2
        = (4 * (base + Bit.PopCnt64Before word (bmBit 5).2)) % 2 ^ 32 ∧
      getStIdx u32Conv base word (bmBit 5).2 = 1 * 4 ∧
      ((⟨3, [548], [0], [0, 0, 0, 10, 0, 0, 0, 20, 0, 0, 0, 30]⟩ : CompactedArray).Elts.drop
        (getStIdx u32Conv base word (bmBit 5).2)).take 4 = u32Conv.Marshal 20 ∧
      Get u32Conv ⟨3, [548], [0], [0, 0, 0, 10, 0, 0, 0, 20, 0, 0, 0, 30]⟩ 5
        = .val (u32Conv.Unmarshal
            ((⟨3, [548], [0], [0, 0, 0, 10, 0, 0, 0, 20, 0, 0, 0, 30]⟩ :
              CompactedArray).Elts.drop (1 * 4))).2 :=
  C16_byte_offset u32Conv [2, 5, 9] [10, 20, 30] _ 4 rfl (fun _ => rfl) (by decide)
    (by decide) 1 5 20 (by decide) (by decide)

/-- C17 (block/bit decomposition): for every `uint32` index, `bmBit` returns the block
`idx / 64` and the bit `idx % 64`; the bit is below 64, the block below `2^26`,
`64 * block + bit` is the index, and two indices with the same pair are equal. -/
theorem C17_bmBit (idx : Nat) (hidx : idx < 2 ^ 32) :
    bmBit idx = (idx / 64, idx % 64) ∧ (bmBit idx).2 < 64 ∧ (bmBit idx).1 < 2 ^ 26 ∧
    64 * (bmBit idx).1 + (bmBit idx).2 = idx ∧
    ∀ idx2, idx2 < 2 ^ 32 → bmBit idx2 = bmBit idx → idx2 = idx := by
  refine ⟨bmBit_eq idx, ?_, ?_, ?_, ?_⟩
  · rw [bmBit_eq]; exact Nat.mod_lt _ (by norm_num)
  · rw [bmBit_eq]
    show idx / 64 < 2 ^ 26
    omega
  · rw [bmBit_eq]; exact Nat.div_add_mod idx 64
  · intro idx2 _ h
    rw [bmBit_eq, bmBit_eq] at h
    have h1 := congrArg Prod.fst h
    have h2 := congrArg Prod.snd h
    simp only [] at h1 h2
    omega

/-- C17, at the largest `uint32` index. -/
theorem C17_bmBit_witness :
    bmBit 4294967295 = (4294967295 / 64, 4294967295 % 64) ∧ (bmBit 4294967295).2 < 64 ∧
    (bmBit 4294967295).1 < 2 ^ 26 ∧
    64 * (bmBit 4294967295).1 + (bmBit 4294967295).2 = 4294967295 ∧
    ∀ idx2, idx2 < 2 ^ 32 → bmBit idx2 = bmBit 4294967295 → idx2 = 4294967295 :=
  C17_bmBit 4294967295 (by norm_num)

end Slim
